import Mathlib

/-!
# Verification of the embedoc marker-rewrite engine and dependency tracker

A shallow embedding of the core of the `embedoc` repository
(`src/core/parser.ts`, `src/core/inline-datasource.ts`, the replacement
processor and `src/core/dependency.ts`), together with proofs and refutations
of the frozen specification claims.

Modelling conventions:
* document text is a `List Char` (`Str`); JavaScript strings are UTF-16 but
  every claim only involves code points below the surrogate range, where the
  two coincide;
* JavaScript values are modelled by the inductive `JValue`; numbers are
  modelled as `Int` (no claim involves non-integer numbers);
* external collaborators (the YAML and JSON parsers used by `js-yaml`,
  `JSON.parse` and `gray-matter`) are taken as parameters (`ExtParsers`);
* fallible code is modelled with `Except String`/`Except Str`.
-/

set_option maxHeartbeats 2000000
set_option maxRecDepth 20000

namespace Embedoc

/-- Document text: a list of characters. -/
abbrev Str := List Char

/-- JavaScript `\w` character class (ASCII word characters). -/
def isWordChar (c : Char) : Bool :=
  ('a' ≤ c && c ≤ 'z') || ('A' ≤ c && c ≤ 'Z') || ('0' ≤ c && c ≤ '9') || c = '_'

/-- JavaScript `\s` character class.  Only the ASCII whitespace characters are
modelled; the Unicode space characters JavaScript additionally accepts do not
occur in any claim. -/
def isSpaceChar (c : Char) : Bool :=
  c = ' ' || c = '\t' || c = '\n' || c = '\r' || c = '\x0b' || c = '\x0c'

/-- ASCII digit. -/
def isDigitChar (c : Char) : Bool :=
  '0' ≤ c && c ≤ '9'

/-- Model: `leadsWith pre s` iff `s` starts with `pre` (JavaScript `startsWith`). -/
def leadsWith : Str → Str → Bool
  | [], _ => true
  | _ :: _, [] => false
  | p :: ps, c :: cs => p = c && leadsWith ps cs

/-- Model: `closesWith suf s` iff `s` ends with `suf` (JavaScript `endsWith`). -/
def closesWith (suf s : Str) : Bool :=
  leadsWith suf.reverse s.reverse

/-- Index of the first occurrence of `needle` in `hay`
(JavaScript `String.indexOf`), if any. -/
def firstOccur (needle : Str) : Str → Option Nat
  | [] => if needle = [] then some 0 else none
  | c :: rest =>
    if leadsWith needle (c :: rest) then some 0
    else (firstOccur needle rest).map (· + 1)

/-- Model: `occursIn needle hay` iff `needle` occurs as a contiguous substring. -/
def occursIn (needle hay : Str) : Bool :=
  (firstOccur needle hay).isSome

/-- JavaScript `String.trim` (restricted to the modelled whitespace class). -/
def trimStr (s : Str) : Str :=
  ((s.dropWhile (isSpaceChar ·)).reverse.dropWhile (isSpaceChar ·)).reverse

/-- Number of occurrences of a character (used for line counting). -/
def countChar (c : Char) (s : Str) : Nat :=
  s.countP (· = c)

/-- JavaScript `String.split(sep)` for a single-character separator. -/
def splitChar (sep : Char) : Str → List Str
  | [] => [[]]
  | c :: rest =>
    if c = sep then [] :: splitChar sep rest
    else
      match splitChar sep rest with
      | [] => [[c]]
      | piece :: more => (c :: piece) :: more

/-- Ordered association list lookup (JavaScript object / `Map` read). -/
def alGet {α : Type} (l : List (Str × α)) (k : Str) : Option α :=
  match l with
  | [] => none
  | (k', v) :: rest => if k' = k then some v else alGet rest k

/-- Ordered association list write: an existing key keeps its position and is
overwritten, a new key is appended (JavaScript object / `Map` write). -/
def alPut {α : Type} (l : List (Str × α)) (k : Str) (v : α) : List (Str × α) :=
  match l with
  | [] => [(k, v)]
  | (k', v') :: rest => if k' = k then (k, v) :: rest else (k', v') :: alPut rest k v

/-- Key membership in an association list (JavaScript `in` / `Map.has`). -/
def alHas {α : Type} (l : List (Str × α)) (k : Str) : Bool :=
  (alGet l k).isSome

/-! ## JavaScript values -/
/-- JavaScript runtime values as far as the core manipulates them.  `undefVal`
models `undefined` (distinct from `null`).  Objects are insertion-ordered
association lists; numbers are modelled as integers. -/
inductive JValue where
  | null
  | undefVal
  | bool (b : Bool)
  | num (n : Int)
  | str (s : Str)
  | arr (elems : List JValue)
  | obj (fields : List (Str × JValue))
deriving Repr

/-- Model: `value === null || value === undefined` (the nullish test the source
performs before string conversion and during path resolution). -/
def JValue.isNullish : JValue → Bool
  | .null => true
  | .undefVal => true
  | _ => false

/-- Model: `typeof value === 'object'` (true for objects, arrays and `null` in
JavaScript; the source always checks nullishness first, so the `null` case
never matters and is modelled as `false` only where the source has already
excluded it). -/
def JValue.isObjectType : JValue → Bool
  | .obj _ => true
  | .arr _ => true
  | .null => true
  | _ => false

mutual

/-- JavaScript `String(value)` on the modelled fragment.  Arrays stringify by
joining their elements with commas (nullish elements become the empty
string); plain objects become `[object Object]`. -/
def jsToString : JValue → Str
  | .null => String.toList "null"
  | .undefVal => String.toList "undefined"
  | .bool true => String.toList "true"
  | .bool false => String.toList "false"
  | .num n => String.toList (toString n)
  | .str s => s
  | .arr xs => jsToStringList xs
  | .obj _ => String.toList "[object Object]"

/-- Model: `Array.prototype.toString`: elements joined with commas. -/
def jsToStringList : List JValue → Str
  | [] => []
  | [x] => if x.isNullish then [] else jsToString x
  | x :: xs => (if x.isNullish then [] else jsToString x) ++ ',' :: jsToStringList xs

end

/-! ## Dot paths (`src/core/inline-datasource.ts`) -/
/-- One segment of a parsed dot path: a string key or a numeric index. -/
inductive PathSeg where
  | key (k : Str)
  | idx (n : Nat)
deriving DecidableEq, Repr

/-- Single-pass scanner implementing the `\[(\d+)\]` → `.$1` rewrite that
`parseDotPath` performs before splitting.  The second argument is `none` in
normal scanning mode and `some acc` (accumulated digits, reversed) after an
opening bracket.  A bracketed digit run becomes a dot-separated segment;
anything else is copied through unchanged, exactly as a failed regex match
leaves the text in place.  (Digits cannot start a `\[(\d+)\]` match, so
re-scanning them is unnecessary.) -/
def bracketsToDotsAux : Str → Option Str → Str
  | [], none => []
  | [], some acc => '[' :: acc.reverse
  | c :: rest, none =>
    if c = '[' then bracketsToDotsAux rest (some [])
    else c :: bracketsToDotsAux rest none
  | c :: rest, some acc =>
    if isDigitChar c then bracketsToDotsAux rest (some (c :: acc))
    else if c = ']' && !acc.isEmpty then '.' :: acc.reverse ++ bracketsToDotsAux rest none
    else if c = '[' then '[' :: acc.reverse ++ bracketsToDotsAux rest (some [])
    else '[' :: acc.reverse ++ c :: bracketsToDotsAux rest none

/-- The `\[(\d+)\]` → `.$1` rewrite performed by `parseDotPath` before
splitting: every bracketed digit run becomes a dot-separated segment. -/
def bracketsToDots (s : Str) : Str :=
  bracketsToDotsAux s none

/-- Digit-run → number (JavaScript `parseInt` on a `\d+` match). -/
def digitsToNat (s : Str) : Nat :=
  s.foldl (fun acc c => acc * 10 + (c.toNat - '0'.toNat)) 0

/-- Model: `parseDotPath` from `inline-datasource.ts`:
`"author.repos[0].name"` → `[key "author", key "repos", idx 0, key "name"]`. -/
def parseDotPath (path : Str) : List PathSeg :=
  ((splitChar '.' (bracketsToDots path)).filter (· ≠ [])).map fun s =>
    if s.all (isDigitChar ·) then .idx (digitsToNat s) else .key s

/-- Property read used by `resolveDotPath`.  Arrays answer numeric indices
(and numeric string keys, which JavaScript coerces); missing keys give
`undefined`.  JavaScript's auto-boxed properties of primitives (for example
`"abc".length`) and non-index array properties are outside the modelled
fragment and give `undefined` here. -/
def JValue.readSeg : JValue → PathSeg → JValue
  | .obj fields, .key k => (alGet fields k).getD .undefVal
  | .obj fields, .idx n => (alGet fields (String.toList (toString n))).getD .undefVal
  | .arr xs, .idx n => (xs.getD n .undefVal)
  | _, _ => .undefVal

/-- Model: `resolveDotPath` from `inline-datasource.ts`: walk the parsed segments,
returning `undefined` as soon as the current value is nullish. -/
def resolveDotPath (v : JValue) (path : Str) : JValue :=
  (parseDotPath path).foldl
    (fun current seg => if current.isNullish then current else current.readSeg seg) v

/-- Index assignment on an array (`arr[n] = v`).  Writing past the end pads
with holes, modelled as `undefined`. -/
def arrSet (xs : List JValue) (n : Nat) (v : JValue) : List JValue :=
  if n < xs.length then xs.set n v
  else xs ++ List.replicate (n - xs.length) .undefVal ++ [v]

/-- The final `current[lastSegment] = value` assignment of `setDotPath`.
Assigning a property on a primitive throws a `TypeError` in strict mode
(ES modules are strict), modelled as `Except.error`.  Assigning a string key
on an array would attach an expando property in JavaScript; no claim reaches
that case and it is modelled as an error. -/
def assignSeg (cur : JValue) (seg : PathSeg) (v : JValue) : Except Str JValue :=
  match cur, seg with
  | .obj fields, .key k => .ok (.obj (alPut fields k v))
  | .obj fields, .idx n => .ok (.obj (alPut fields (String.toList (toString n)) v))
  | .arr xs, .idx n => .ok (.arr (arrSet xs n v))
  | .arr _, .key _ => .error (String.toList "unmodelled: string property on array")
  | _, _ => .error (String.toList "TypeError: cannot create property on primitive")

/-- The existing child at a key, or the freshly created intermediate
container: an array when the next path segment is numeric, an object
otherwise (`if (!(segment in current)) current[segment] = ...`). -/
def childFor (fields : List (Str × JValue)) (k : Str) (rest : List PathSeg) : JValue :=
  match alGet fields k with
  | some c => c
  | none =>
    match rest with
    | .idx _ :: _ => JValue.arr []
    | _ => JValue.obj []

/-- The intermediate-segment step of `setDotPath`: a numeric segment in a
non-final position throws; `segment in current` throws a `TypeError` when
`current` is a primitive; a missing key is created as `[]` when the *next*
segment is numeric and `{}` otherwise. -/
def setSegs (path : Str) : List PathSeg → JValue → JValue → Except Str JValue
  | [], cur, _ => .ok cur
  | [last], cur, v => assignSeg cur last v
  | .idx _ :: _ :: _, _, _ =>
    .error (String.toList "Array index in middle of path not supported: " ++ path)
  | .key k :: s2 :: rest, .obj fields, v =>
    match setSegs path (s2 :: rest) (childFor fields k (s2 :: rest)) v with
    | .ok child' => .ok (.obj (alPut fields k child'))
    | .error e => .error e
  | .key _ :: _ :: _, .arr _, _ =>
    .error (String.toList "unmodelled: string property on array")
  | .key _ :: _ :: _, _, _ =>
    .error (String.toList "TypeError: cannot use in operator on primitive")

/-- Model: `setDotPath` from `inline-datasource.ts`, on a functional tree.  The
source mutates `obj` in place; the model returns the updated tree (or the
thrown error). -/
def setDotPath (obj : List (Str × JValue)) (path : Str) (v : JValue) :
    Except Str (List (Str × JValue)) :=
  if parseDotPath path = [] then .ok obj
  else
    match setSegs path (parseDotPath path) (.obj obj) v with
    | .ok (.obj fields) => .ok fields
    | .ok _ => .ok obj
    | .error e => .error e

/-- Model: `getRootName`: the substring before the first dot. -/
def getRootName (path : Str) : Str :=
  match firstOccur (String.toList ".") path with
  | none => path
  | some i => path.take i

/-! ## Inline content decoding (`src/core/inline-datasource.ts`) -/
/-- The external parser collaborators: `js-yaml` (`yaml.load` with
`JSON_SCHEMA`) and `JSON.parse`.  Both may throw; both are external libraries
and are therefore parameters of the model. -/
structure ExtParsers where
  yamlLoad : Str → Except Str JValue
  jsonParse : Str → Except Str JValue

/-- Strip the default opening fence pattern `^\x60\x60\x60\w*\s*\n?`
(anchored at the start, so at most the leading fence is removed). -/
def stripOpenFence (s : Str) : Str :=
  if leadsWith (String.toList "```") s then
    ((s.drop 3).dropWhile (isWordChar ·)).dropWhile (isSpaceChar ·)
  else s

/-- Whether a code fence followed only by whitespace reaches the end of the
string (the `\x60\x60\x60\s*$` part of the closing-fence pattern). -/
def fenceToEnd (t : Str) : Bool :=
  leadsWith (String.toList "```") t && (t.drop 3).all (isSpaceChar ·)

/-- Strip the default closing fence pattern `\n?\x60\x60\x60\s*$`:
the leftmost position from which an (optionally newline-preceded) fence runs,
modulo trailing whitespace, to the end of the string. -/
def stripCloseFence : Str → Str
  | [] => []
  | c :: rest =>
    if fenceToEnd (c :: rest) then []
    else if c = '\n' && fenceToEnd rest then []
    else c :: stripCloseFence rest

/-- Model: `stripPatterns` from `inline-datasource.ts` applied to the default
patterns (`DEFAULT_STRIP_PATTERNS`): trim, strip the opening fence, strip the
closing fence, trim again.  Custom `stripPatterns` overrides are arbitrary
external regexes and are outside the modelled fragment (no claim uses them). -/
def stripDefaultPatterns (content : Str) : Str :=
  trimStr (stripCloseFence (stripOpenFence (trimStr content)))

/-- Content-processing options (`ContentProcessingOptions`). -/
structure ContentOptions where
  stripCodeFences : Bool := true
deriving DecidableEq, Repr

/-- Row construction shared by the CSV and table decoders:
`headers.forEach((h, i) => row[h] = values[i] ?? '')`. -/
def zipRow : List Str → List Str → List (Str × JValue) → List (Str × JValue)
  | [], _, acc => acc
  | h :: hs, [], acc => zipRow hs [] (alPut acc h (.str []))
  | h :: hs, v :: vs, acc => zipRow hs vs (alPut acc h (.str v))

/-- Model: `parseCSV`: first non-blank line is the header, the rest are zipped
against it; blank lines are skipped. -/
def parseCSV (content : Str) : JValue :=
  match (splitChar '\n' content).filter (fun l => trimStr l ≠ []) with
  | [] => .arr []
  | headerLine :: rest =>
    let headers := (splitChar ',' headerLine).map trimStr
    .arr (rest.map fun line =>
      .obj (zipRow headers ((splitChar ',' line).map trimStr) []))

/-- The separator-row test `/^\|[-:| ]+\|$/` of `parseMarkdownTable`. -/
def isSepRow (l : Str) : Bool :=
  match l with
  | '|' :: rest =>
    let mid := rest.dropLast
    !mid.isEmpty && rest.getLast? = some '|' &&
      mid.all (fun c => c = '-' || c = ':' || c = '|' || c = ' ')
  | _ => false

/-- Model: `parseMarkdownTable`: trimmed non-blank non-separator lines; the first is
the header (pipe-split, trimmed, empties dropped); data rows are pipe-split
with the boundary cells dropped when the row starts with a pipe. -/
def parseMarkdownTable (content : Str) : JValue :=
  let lines := ((splitChar '\n' content).map trimStr).filter
    (fun l => l ≠ [] && !isSepRow l)
  match lines with
  | [] => .arr []
  | headerLine :: rest =>
    let headers := ((splitChar '|' headerLine).map trimStr).filter (· ≠ [])
    .arr (rest.map fun line =>
      let allValues := (splitChar '|' line).map trimStr
      let cleanValues :=
        if leadsWith (String.toList "|") line then (allValues.drop 1).dropLast
        else allValues
      .obj (zipRow headers cleanValues []))

/-- Model: `parseInlineContent`: optional fence stripping, trim, then decode per
declared format; unknown formats fall through to `text` semantics.  The YAML
branch applies `?? \x7b\x7d` to a nullish load result; the JSON branch maps
empty content to `\x7b\x7d` and otherwise defers to `JSON.parse`. -/
def parseInlineContent (P : ExtParsers) (content : Str) (format : Str)
    (opts : ContentOptions) : Except Str JValue :=
  let processed := if opts.stripCodeFences then stripDefaultPatterns content else content
  let trimmed := trimStr processed
  if format = String.toList "yaml" then
    match P.yamlLoad trimmed with
    | .ok v => .ok (if v.isNullish then .obj [] else v)
    | .error e => .error e
  else if format = String.toList "json" then
    if trimmed = [] then .ok (.obj []) else P.jsonParse trimmed
  else if format = String.toList "csv" then .ok (parseCSV trimmed)
  else if format = String.toList "table" then .ok (parseMarkdownTable trimmed)
  else .ok (.str trimmed)

/-! ## Inline datasources (`src/core/inline-datasource.ts`) -/
/-- One parsed `@embedoc-data` marker (`ParsedInlineData`). -/
structure ParsedInlineData where
  name : Str
  format : Str
  content : Str
  startLine : Nat
  endLine : Nat
  byteSize : Nat
deriving DecidableEq, Repr

/-- Conflict policy between inline and external datasources. -/
inductive ConflictPolicy where
  | warn
  | error
  | prefer_external
deriving DecidableEq, Repr

/-- Inline-datasource configuration (`InlineDatasourceConfig`); `none` fields
fall back to `DEFAULT_CONFIG` via the object spread.  Custom `stripPatterns`
are external regexes and unmodelled (every claim uses the defaults). -/
structure InlineDsConfig where
  enabled : Option Bool := none
  maxBytes : Option Nat := none
  allowedFormats : Option (List Str) := none
  conflictPolicy : Option ConflictPolicy := none
  allowAnonymous : Option Bool := none
  stripCodeFences : Option Bool := none

/-- Model: `DEFAULT_CONFIG.maxBytes = 10240` unless overridden. -/
def InlineDsConfig.mergedMaxBytes (c : InlineDsConfig) : Nat :=
  c.maxBytes.getD 10240

/-- Model: `DEFAULT_CONFIG.allowedFormats` unless overridden. -/
def InlineDsConfig.mergedAllowedFormats (c : InlineDsConfig) : List Str :=
  c.allowedFormats.getD
    [String.toList "yaml", String.toList "json", String.toList "csv",
     String.toList "table", String.toList "text"]

/-- Model: `DEFAULT_CONFIG.stripCodeFences = true` unless overridden. -/
def InlineDsConfig.mergedStripCodeFences (c : InlineDsConfig) : Bool :=
  c.stripCodeFences.getD true

/-- Model: `conflictPolicy ?? 'warn'` (the read in `processFile`). -/
def InlineDsConfig.mergedConflictPolicy (c : InlineDsConfig) : ConflictPolicy :=
  c.conflictPolicy.getD .warn

/-- Location metadata for one inline definition (`InternalLocation`). -/
structure InlineLoc where
  propertyPath : Str
  startLine : Nat
  endLine : Nat
  format : Str
deriving DecidableEq, Repr

/-- Code-point lexicographic string order (model of `localeCompare`, which in
practice agrees with code-point order on the `\w`/dot property paths that
occur here). -/
def strLe : Str → Str → Bool
  | [], _ => true
  | _ :: _, [] => false
  | a :: as, b :: bs => if a = b then strLe as bs else decide (a < b)

/-- The constructor's location comparator: the root entry (empty path) first,
then lexicographic by property path. -/
def locLe (a b : InlineLoc) : Bool :=
  if a.propertyPath = [] then true
  else if b.propertyPath = [] then false
  else strLe a.propertyPath b.propertyPath

/-- Stable insertion of a location into a sorted list. -/
def insertLoc (x : InlineLoc) : List InlineLoc → List InlineLoc
  | [] => [x]
  | y :: ys => if locLe y x then y :: insertLoc x ys else x :: y :: ys

/-- Stable sort of the location list (`[...locations].sort(...)` in the
`InlineDatasource` constructor; V8's sort is stable). -/
def sortLocations : List InlineLoc → List InlineLoc
  | [] => []
  | x :: xs => insertLoc x (sortLocations xs)

/-- The materialized inline datasource (`InlineDatasource`). -/
structure InlineDS where
  data : JValue
  format : Str
  documentPath : Str
  startLine : Nat
  endLine : Nat
  byteSize : Nat
  locations : List InlineLoc
deriving Repr

/-- The `InlineDatasource` constructor (sorts the locations). -/
def mkInlineDS (data : JValue) (format documentPath : Str)
    (startLine endLine byteSize : Nat) (locations : List InlineLoc) : InlineDS :=
  { data, format, documentPath, startLine, endLine, byteSize,
    locations := sortLocations locations }

/-- Model: `InlineDatasource.getAll` (and `query`): the data as-is when it is an
array, otherwise wrapped in a one-element array. -/
def InlineDS.getAll (ds : InlineDS) : List JValue :=
  match ds.data with
  | .arr xs => xs
  | v => [v]

/-- Model: `InlineDatasource.get`: dot-path resolution against the data. -/
def InlineDS.get (ds : InlineDS) (dotPath : Str) : JValue :=
  resolveDotPath ds.data dotPath

/-- Validation and grouping loop of `buildInlineDatasources`: each
declaration is size- and format-checked (fail-fast) and appended to its root
name's group, in document order. -/
def validateAndGroup (cfg : InlineDsConfig) :
    List ParsedInlineData → List (Str × List ParsedInlineData) →
    Except Str (List (Str × List ParsedInlineData))
  | [], acc => .ok acc
  | d :: rest, acc =>
    if d.byteSize > cfg.mergedMaxBytes then
      .error (String.toList "Inline datasource \"" ++ d.name ++
        String.toList "\" exceeds max size (" ++ String.toList (toString d.byteSize) ++
        String.toList " > " ++ String.toList (toString cfg.mergedMaxBytes) ++
        String.toList " bytes)")
    else if !(cfg.mergedAllowedFormats.contains d.format) then
      .error (String.toList "Inline datasource \"" ++ d.name ++
        String.toList "\" uses disallowed format \"" ++ d.format ++ String.toList "\"")
    else
      validateAndGroup cfg rest
        (alPut acc (getRootName d.name) ((alGet acc (getRootName d.name)).getD [] ++ [d]))

/-- Intermediate accumulator while reducing one root's declarations. -/
structure RootAcc where
  baseData : JValue
  format : Str
  startLine : Nat
  endLine : Nat
  byteSize : Nat
  locations : List InlineLoc

/-- The dot-path application loop of `buildInlineDatasources`: every
declaration named `root + "." + subpath` is parsed per its own format and
written into the base data with `setDotPath`, replacing a non-object base by
`\x7b\x7d` first; location records and the aggregate line/byte metadata are
updated along the way. -/
def applyDotItems (P : ExtParsers) (opts : ContentOptions) (rootName : Str) :
    List ParsedInlineData → RootAcc → Except Str RootAcc
  | [], acc => .ok acc
  | item :: rest, acc =>
    if item.name ≠ rootName && leadsWith (rootName ++ String.toList ".") item.name then
      let subPath := item.name.drop (rootName.length + 1)
      match parseInlineContent P item.content item.format opts with
      | .error e => .error e
      | .ok value =>
        let base :=
          match acc.baseData with
          | .obj f => JValue.obj f
          | .arr xs => JValue.arr xs
          | _ => JValue.obj []
        let newBaseE : Except Str JValue :=
          match base with
          | .obj f => (setDotPath f subPath value).map JValue.obj
          | _ => .error (String.toList "unmodelled: setDotPath on array base")
        match newBaseE with
        | .error e => .error e
        | .ok newBase =>
          applyDotItems P opts rootName rest
            { baseData := newBase
              format := acc.format
              startLine :=
                if acc.startLine = 0 || item.startLine < acc.startLine then item.startLine
                else acc.startLine
              endLine := if item.endLine > acc.endLine then item.endLine else acc.endLine
              byteSize := acc.byteSize + item.byteSize
              locations := acc.locations ++
                [⟨subPath, item.startLine, item.endLine, item.format⟩] }
    else
      applyDotItems P opts rootName rest acc

/-- Reduce one root's declarations into an `InlineDatasource`: the first
root-level declaration (if any) seeds the data, then the dot-path
declarations are applied in document order. -/
def buildRoot (P : ExtParsers) (cfg : InlineDsConfig) (documentPath rootName : Str)
    (items : List ParsedInlineData) : Except Str InlineDS :=
  let opts : ContentOptions := { stripCodeFences := cfg.mergedStripCodeFences }
  let initE : Except Str RootAcc :=
    match items.find? (fun i => i.name = rootName) with
    | some ri =>
      match parseInlineContent P ri.content ri.format opts with
      | .error e => .error e
      | .ok base =>
        .ok ⟨base, ri.format, ri.startLine, ri.endLine, ri.byteSize,
          [⟨[], ri.startLine, ri.endLine, ri.format⟩]⟩
    | none => .ok ⟨JValue.obj [], String.toList "yaml", 0, 0, 0, []⟩
  match initE with
  | .error e => .error e
  | .ok init =>
    match applyDotItems P opts rootName items init with
    | .error e => .error e
    | .ok acc =>
      .ok (mkInlineDS acc.baseData acc.format documentPath acc.startLine acc.endLine
        acc.byteSize acc.locations)

/-- The per-root reduction loop of `buildInlineDatasources`. -/
def buildRootsLoop (P : ExtParsers) (cfg : InlineDsConfig) (documentPath : Str) :
    List (Str × List ParsedInlineData) → List (Str × InlineDS) →
    Except Str (List (Str × InlineDS))
  | [], acc => .ok acc
  | g :: rest, acc =>
    match buildRoot P cfg documentPath g.1 g.2 with
    | .error e => .error e
    | .ok ds => buildRootsLoop P cfg documentPath rest (alPut acc g.1 ds)

/-- Model: `buildInlineDatasources`: validate and group, then reduce each root in
first-occurrence order into one datasource.  Any validation, parse or
`setDotPath` failure aborts the whole build for the document. -/
def buildInlineDatasources (P : ExtParsers) (parsedData : List ParsedInlineData)
    (documentPath : Str) (cfg : InlineDsConfig) :
    Except Str (List (Str × InlineDS)) :=
  match validateAndGroup cfg parsedData [] with
  | .error e => .error e
  | .ok groups => buildRootsLoop P cfg documentPath groups []

/-! ## Marker parsing (`src/core/parser.ts`) -/
/-- A comment style.  Source field names are `start` and `end`; `end` is a
Lean keyword, hence `startDelim`/`endDelim`.  An empty `endDelim` selects the
line-terminated parsing mode. -/
structure CommentStyle where
  startDelim : Str
  endDelim : Str
deriving DecidableEq, Repr

/-- Model: `DEFAULT_COMMENT_STYLES`. -/
def DEFAULT_COMMENT_STYLES : List (Str × CommentStyle) :=
  [(String.toList "html", ⟨String.toList "<!--", String.toList "-->"⟩),
   (String.toList "block", ⟨String.toList "/*", String.toList "*/"⟩),
   (String.toList "line", ⟨String.toList "//", []⟩),
   (String.toList "hash", ⟨String.toList "#", []⟩),
   (String.toList "sql", ⟨String.toList "--", []⟩)]

/-- Model: `getCommentStyle`: defaults overridden by the custom styles; an unknown
name throws. -/
def getCommentStyle (styleName : Str) (customStyles : List (Str × CommentStyle)) :
    Except Str CommentStyle :=
  match alGet customStyles styleName with
  | some s => .ok s
  | none =>
    match alGet DEFAULT_COMMENT_STYLES styleName with
    | some s => .ok s
    | none => .error (String.toList "Unknown comment style: " ++ styleName)

/-- One `key="value"`/`key='value'` match attempt of the
`(\w+)=["']([^"']*)["']` attribute regex at the head of `s`; returns
`(key, value, matchLength)`.  Note the source pattern accepts mismatched
quote pairs. -/
def matchAttrAt (s : Str) : Option (Str × Str × Nat) :=
  let key := s.takeWhile (isWordChar ·)
  if key = [] then none
  else
    match s.drop key.length with
    | '=' :: r2 =>
      match r2 with
      | q :: r3 =>
        if q = '"' || q = '\'' then
          let val := r3.takeWhile (fun c => c ≠ '"' && c ≠ '\'')
          match r3.drop val.length with
          | q2 :: _ =>
            if q2 = '"' || q2 = '\'' then
              some (key, val, key.length + 2 + val.length + 1)
            else none
          | [] => none
        else none
      | [] => none
    | _ => none

/-- The global attribute scan (`attrRegex.exec` loop of `parseAttributes`):
the skip counter models the regex `lastIndex` jumping to the end of each
match. -/
def parseAttributesAux : Str → Nat → List (Str × Str) → List (Str × Str)
  | [], _, acc => acc
  | _ :: rest, Nat.succ k, acc => parseAttributesAux rest k acc
  | s@(_ :: rest), 0, acc =>
    match matchAttrAt s with
    | some (key, val, len) => parseAttributesAux rest (len - 1) (alPut acc key val)
    | none => parseAttributesAux rest 0 acc

/-- Model: `parseAttributes`: ordered key/value map of the `key="value"` pairs;
unparsable fragments are skipped. -/
def parseAttributes (attrString : Str) : List (Str × Str) :=
  parseAttributesAux attrString 0 []

/-- The `(?!end\b)` negative lookahead of the embed start patterns: the text
begins with `end` at a word boundary. -/
def lookaheadEndWordB (s : Str) : Bool :=
  leadsWith (String.toList "end") s &&
    (match (s.drop 3).head? with
     | none => true
     | some c => !isWordChar c)

/-- Start-marker match attempt for a delimited (non-empty `end`) style at the
head of `s`; returns `(matchLength, templateName, rawAttrText)`.  The greedy
`\w+` name is modelled as the maximal word run, which is exact whenever the
end delimiter contains no word characters (true of every default style); the
match then ends at the first occurrence of the end delimiter, per the lazy
`[^]*?`. -/
def matchStartAtB (startD endD : Str) (s : Str) : Option (Nat × Str × Str) :=
  if !leadsWith startD s then none
  else
    let s1 := s.drop startD.length
    let ws1 := s1.takeWhile (isSpaceChar ·)
    let s2 := s1.drop ws1.length
    if !leadsWith (String.toList "@embedoc:") s2 then none
    else
      let s3 := s2.drop 9
      if lookaheadEndWordB s3 then none
      else
        let name := s3.takeWhile (isWordChar ·)
        if name = [] then none
        else
          let s4 := s3.drop name.length
          match firstOccur endD s4 with
          | none => none
          | some q =>
            some (startD.length + ws1.length + 9 + name.length + q + endD.length,
              name, s4.take q)

/-- Start-marker match attempt for a line-terminated style: the attribute
part is `\s*(.*)$`, i.e. a greedy whitespace run (which may cross newlines)
followed by the run of non-line-terminator characters. -/
def matchStartAtL (startD : Str) (s : Str) : Option (Nat × Str × Str) :=
  if !leadsWith startD s then none
  else
    let s1 := s.drop startD.length
    let ws1 := s1.takeWhile (isSpaceChar ·)
    let s2 := s1.drop ws1.length
    if !leadsWith (String.toList "@embedoc:") s2 then none
    else
      let s3 := s2.drop 9
      if lookaheadEndWordB s3 then none
      else
        let name := s3.takeWhile (isWordChar ·)
        if name = [] then none
        else
          let s4 := s3.drop name.length
          let ws2 := s4.takeWhile (isSpaceChar ·)
          let attrs := (s4.drop ws2.length).takeWhile (fun c => c ≠ '\n' && c ≠ '\r')
          some (startD.length + ws1.length + 9 + name.length + ws2.length + attrs.length,
            name, attrs)

/-- Dispatch on the comment style's parsing mode. -/
def matchStartAt (cs : CommentStyle) (s : Str) : Option (Nat × Str × Str) :=
  if cs.endDelim = [] then matchStartAtL cs.startDelim s
  else matchStartAtB cs.startDelim cs.endDelim s

/-- End-marker match attempt for a delimited style
(`{start}\s*@embedoc:end\s*{end}`); returns the match length. -/
def matchEndAtB (startD endD tag : Str) (s : Str) : Option Nat :=
  if !leadsWith startD s then none
  else
    let s1 := s.drop startD.length
    let ws1 := s1.takeWhile (isSpaceChar ·)
    let s2 := s1.drop ws1.length
    if !leadsWith tag s2 then none
    else
      let s3 := s2.drop tag.length
      let ws2 := s3.takeWhile (isSpaceChar ·)
      if leadsWith endD (s3.drop ws2.length) then
        some (startD.length + ws1.length + tag.length + ws2.length + endD.length)
      else none

/-- Largest whitespace prefix of `run ++ after` whose end position satisfies
the multiline `$` anchor (next character is a line terminator, or end of
input): the backtracking of the trailing `\s*$`. -/
def dollarConsume (run after : Str) : Option Nat :=
  match after with
  | [] =>
    -- the run reaches the end of the string: consume it all
    some run.length
  | _ =>
    -- the character after the run is not a line terminator (it is not even
    -- whitespace), so the match must stop just before a terminator inside
    -- the run: the last `\n`/`\r` position in the run
    let revIdx := run.reverse.findIdx? (fun c => c = '\n' || c = '\r')
    revIdx.map (fun r => run.length - 1 - r)

/-- End-marker match attempt for a line-terminated style
(`{start}\s*@embedoc:end\s*$` with the `m` flag). -/
def matchEndAtL (startD tag : Str) (s : Str) : Option Nat :=
  if !leadsWith startD s then none
  else
    let s1 := s.drop startD.length
    let ws1 := s1.takeWhile (isSpaceChar ·)
    let s2 := s1.drop ws1.length
    if !leadsWith tag s2 then none
    else
      let s3 := s2.drop tag.length
      let run := s3.takeWhile (isSpaceChar ·)
      match dollarConsume run (s3.drop run.length) with
      | some k => some (startD.length + ws1.length + tag.length + k)
      | none => none

/-- Dispatch for the embed end pattern. -/
def matchEndAt (cs : CommentStyle) (s : Str) : Option Nat :=
  if cs.endDelim = [] then matchEndAtL cs.startDelim (String.toList "@embedoc:end") s
  else matchEndAtB cs.startDelim cs.endDelim (String.toList "@embedoc:end") s

/-- Leftmost match of an end pattern (`endPattern.exec(remainingContent)`):
the first index at which the matcher succeeds, with the match length. -/
def findMatchFrom (matcher : Str → Option Nat) : Str → Option (Nat × Nat)
  | [] => none
  | s@(_ :: rest) =>
    match matcher s with
    | some len => some (0, len)
    | none => (findMatchFrom matcher rest).map (fun p => (p.1 + 1, p.2))

/-- The global start-marker scan (`startPattern.exec` loop): the skip counter
models `lastIndex` jumping to the end of each match; results are
`(position, matchLength, name, rawAttr)` in document order. -/
def scanMatchesAux (matcher : Str → Option (Nat × Str × Str)) :
    Str → Nat → Nat → List (Nat × Nat × Str × Str)
  | [], _, _ => []
  | _ :: rest, pos, Nat.succ k => scanMatchesAux matcher rest (pos + 1) k
  | s@(_ :: rest), pos, 0 =>
    match matcher s with
    | some (len, name, attr) =>
      (pos, len, name, attr) :: scanMatchesAux matcher rest (pos + 1) (len - 1)
    | none => scanMatchesAux matcher rest (pos + 1) 0

/-- One parsed marker (`ParsedMarker`). -/
structure ParsedMarker where
  startIndex : Nat
  endIndex : Nat
  templateName : Str
  params : List (Str × Str)
  existingContent : Str
  startMarkerLine : Str
  endMarkerLine : Str
deriving DecidableEq, Repr

/-- Model: `parseMarkers`: every start match is paired with the nearest end match in
the text *after* it; start matches with no following end match are silently
dropped. -/
def parseMarkers (content : Str) (cs : CommentStyle) : List ParsedMarker :=
  (scanMatchesAux (matchStartAt cs) content 0 0).filterMap fun m =>
    let (i, len, name, attr) := m
    let afterStart := content.drop (i + len)
    match findMatchFrom (matchEndAt cs) afterStart with
    | none => none
    | some (eIdx, eLen) =>
      some { startIndex := i
             endIndex := i + len + eIdx + eLen
             templateName := name
             params := parseAttributes (trimStr attr)
             existingContent := afterStart.take eIdx
             startMarkerLine := (content.drop i).take len
             endMarkerLine := (afterStart.drop eIdx).take eLen }

/-! ### Inline-data markers -/
/-- The `(?!end\s*{end})` lookahead of the block data start pattern. -/
def lookaheadDataEndB (endD s : Str) : Bool :=
  leadsWith (String.toList "end") s &&
    leadsWith endD ((s.drop 3).dropWhile (isSpaceChar ·))

/-- The `(?!end\s*$)` lookahead of the line data start pattern. -/
def lookaheadDataEndL (s : Str) : Bool :=
  leadsWith (String.toList "end") s &&
    (let run := (s.drop 3).takeWhile (isSpaceChar ·)
     (s.drop 3).drop run.length = [] || run.any (fun c => c = '\n' || c = '\r'))

/-- Whether a candidate attribute segment (the text between the data name and
an end-delimiter occurrence) matches `(?:\s+([^\n]*?))?\s*`: empty, or
beginning with whitespace and with every newline confined to the leading or
trailing whitespace runs. -/
def dataAttrSegOk (seg : Str) : Bool :=
  match seg with
  | [] => true
  | c :: _ => isSpaceChar c && !(trimStr seg).contains '\n'

/-- Successive occurrences of the end delimiter in `s4`: the first one whose
preceding segment is a valid attribute segment ends the match. -/
def findDataDelim (endD : Str) : Str → Str → Option (Nat × Str)
  | consumedRev, s =>
    match s with
    | [] => none
    | c :: rest =>
      if leadsWith endD s && dataAttrSegOk consumedRev.reverse then
        some (consumedRev.length, consumedRev.reverse)
      else findDataDelim endD (c :: consumedRev) rest

/-- Block data start pattern
`{start}\s*@embedoc-data:(?!end\s*{end})([\w.]+)(?:\s+([^\n]*?))?\s*{end}`. -/
def matchDataStartAtB (startD endD : Str) (s : Str) : Option (Nat × Str × Str) :=
  if !leadsWith startD s then none
  else
    let s1 := s.drop startD.length
    let ws1 := s1.takeWhile (isSpaceChar ·)
    let s2 := s1.drop ws1.length
    if !leadsWith (String.toList "@embedoc-data:") s2 then none
    else
      let s3 := s2.drop 14
      if lookaheadDataEndB endD s3 then none
      else
        let name := s3.takeWhile (fun c => isWordChar c || c = '.')
        if name = [] then none
        else
          let s4 := s3.drop name.length
          match findDataDelim endD [] s4 with
          | none => none
          | some (q, seg) =>
            some (startD.length + ws1.length + 14 + name.length + q + endD.length,
              name, seg)

/-- Line data start pattern
`{start}\s*@embedoc-data:(?!end\s*$)([\w.]+)(?:\s+(.*))?$`.  Unlike the embed
start pattern, a non-whitespace character directly after the name fails the
match (the attribute group requires `\s+`). -/
def matchDataStartAtL (startD : Str) (s : Str) : Option (Nat × Str × Str) :=
  if !leadsWith startD s then none
  else
    let s1 := s.drop startD.length
    let ws1 := s1.takeWhile (isSpaceChar ·)
    let s2 := s1.drop ws1.length
    if !leadsWith (String.toList "@embedoc-data:") s2 then none
    else
      let s3 := s2.drop 14
      if lookaheadDataEndL s3 then none
      else
        let name := s3.takeWhile (fun c => isWordChar c || c = '.')
        if name = [] then none
        else
          let s4 := s3.drop name.length
          match s4 with
          | [] => some (startD.length + ws1.length + 14 + name.length, name, [])
          | c :: _ =>
            if isSpaceChar c then
              let ws2 := s4.takeWhile (isSpaceChar ·)
              let attrs := (s4.drop ws2.length).takeWhile (fun c => c ≠ '\n' && c ≠ '\r')
              some (startD.length + ws1.length + 14 + name.length + ws2.length +
                attrs.length, name, attrs)
            else if c = '\n' || c = '\r' then
              some (startD.length + ws1.length + 14 + name.length, name, [])
            else none

/-- Dispatch for the data start pattern. -/
def matchDataStartAt (cs : CommentStyle) (s : Str) : Option (Nat × Str × Str) :=
  if cs.endDelim = [] then matchDataStartAtL cs.startDelim s
  else matchDataStartAtB cs.startDelim cs.endDelim s

/-- Dispatch for the data end pattern (`@embedoc-data:end`). -/
def matchDataEndAt (cs : CommentStyle) (s : Str) : Option Nat :=
  if cs.endDelim = [] then matchEndAtL cs.startDelim (String.toList "@embedoc-data:end") s
  else matchEndAtB cs.startDelim cs.endDelim (String.toList "@embedoc-data:end") s

/-- UTF-8 byte length (`Buffer.byteLength(content, 'utf-8')`). -/
def utf8Len (s : Str) : Nat :=
  s.foldl (fun a c => a + c.utf8Size) 0

/-- Model: `getLineNumber`: 1-based line of a byte offset. -/
def getLineNumber (content : Str) (index : Nat) : Nat :=
  countChar '\n' (content.take index) + 1

/-- Model: `parseInlineDataMarkers`: the `@embedoc-data` scan, pairing each start
with the nearest following `@embedoc-data:end` and recording line numbers and
the UTF-8 byte size. -/
def parseInlineDataMarkers (content : Str) (cs : CommentStyle) :
    List ParsedInlineData :=
  (scanMatchesAux (matchDataStartAt cs) content 0 0).filterMap fun m =>
    let (i, len, name, attr) := m
    if name = String.toList "end" then none
    else
      let attrs := parseAttributes (trimStr attr)
      let format := (alGet attrs (String.toList "format")).getD (String.toList "yaml")
      let afterStart := content.drop (i + len)
      match findMatchFrom (matchDataEndAt cs) afterStart with
      | none => none
      | some (eIdx, eLen) =>
        some { name := name
               format := format
               content := afterStart.take eIdx
               startLine := getLineNumber content i
               endLine := getLineNumber content (i + len + eIdx + eLen)
               byteSize := utf8Len (afterStart.take eIdx) }

/-! ## Frontmatter (`gray-matter` and `parseFrontmatter`) -/
/-- Result of the external `gray-matter` call: the parsed data object, the
body content, and the raw matter string (`parsed.matter`, which begins with
the newline after the opening delimiter). -/
structure MatterRes where
  data : List (Str × JValue)
  content : Str
  matterStr : Str

/-- Model of `gray-matter`'s `matter(content)` for the fragment the claims
exercise: an opening `---` line (language tags are outside the model), the
matter text up to the first `\n---`, and the body after it with one
following newline removed.  Inputs with no closing delimiter are treated as
having no frontmatter.  The YAML engine is the abstract `yamlLoad`; a
non-object parse yields an empty data object. -/
def grayMatter (P : ExtParsers) (s : Str) : Except Str MatterRes :=
  if !leadsWith (String.toList "---") s then .ok ⟨[], s, []⟩
  else if leadsWith (String.toList "-") (s.drop 3) then .ok ⟨[], s, []⟩
  else
    let afterOpen := s.drop 3
    match firstOccur (String.toList "\n---") afterOpen with
    | none => .ok ⟨[], s, []⟩
    | some ci =>
      if trimStr (afterOpen.takeWhile (· ≠ '\n')) ≠ [] then
        .error (String.toList "unmodelled: frontmatter language tag")
      else
        let matterStr := afterOpen.take ci
        let rest := afterOpen.drop (ci + 4)
        let body := if leadsWith (String.toList "\n") rest then rest.drop 1 else rest
        match P.yamlLoad matterStr with
        | .error e => .error e
        | .ok d =>
          let fields := match d with | .obj f => f | _ => []
          .ok ⟨fields, body, matterStr⟩

/-- Model: `ParsedFrontmatter`. -/
structure ParsedFm where
  data : List (Str × JValue)
  content : Str
  raw : Str

/-- Model: `parseFrontmatter` from `parser.ts`: reconstruct a normalized raw block
`---\n{trimmed matter}\n---\n` when the data object is non-empty and a
matter string exists, and strip leading newlines from the body. -/
def parseFrontmatter (P : ExtParsers) (content : Str) : Except Str ParsedFm :=
  match grayMatter P content with
  | .error e => .error e
  | .ok pm =>
    let raw :=
      if !pm.data.isEmpty && !pm.matterStr.isEmpty then
        String.toList "---\n" ++ trimStr pm.matterStr ++ String.toList "\n---\n"
      else []
    .ok ⟨pm.data, pm.content.dropWhile (· = '\n'), raw⟩

/-! ## Variable resolution (`resolveVariablesWithInline` in the processor) -/
/-- The repetition part of the variable path pattern
`\w+(?:\.\w+|\[\d+\])*` followed by the closing brace: consume `.word` and
`[digits]` extensions greedily, then require `\x7d`.  The fuel argument only
bounds the iteration count (callers pass the remaining string length, which
the loop strictly consumes). -/
def varExtLoop : Nat → Str → Str → Option Str
  | 0, s, acc => if leadsWith (String.toList "\x7d") s then some acc else none
  | fuel + 1, s, acc =>
    match s with
    | '.' :: r2 =>
      let seg := r2.takeWhile (isWordChar ·)
      if seg = [] then none
      else varExtLoop fuel (r2.drop seg.length) (acc ++ '.' :: seg)
    | '[' :: r2 =>
      let ds := r2.takeWhile (isDigitChar ·)
      if ds = [] then none
      else
        match r2.drop ds.length with
        | ']' :: r3 => varExtLoop fuel r3 (acc ++ '[' :: ds ++ String.toList "]")
        | _ => none
    | _ => if leadsWith (String.toList "\x7d") s then some acc else none

/-- Variable match attempt `\$\{(\w+(?:\.\w+|\[\d+\])*)\}` at the head of
`s`; returns the captured path and the whole match length. -/
def matchVarAt (s : Str) : Option (Str × Nat) :=
  match s with
  | '$' :: '{' :: r =>
    let root := r.takeWhile (isWordChar ·)
    if root = [] then none
    else
      match varExtLoop r.length (r.drop root.length) root with
      | some path => some (path, path.length + 3)
      | none => none
  | _ => none

/-- The frontmatter fallback walk: dot-split parts looked up one by one;
nullish intermediate values and non-object traversal yield the empty string,
and the final value is stringified unless nullish.  Array elements answer
numeric string keys (as JavaScript coerces them); other array properties and
auto-boxed primitive properties are outside the modelled fragment. -/
def fmWalkLoop : List Str → JValue → Str
  | [], current => if current.isNullish then [] else jsToString current
  | part :: rest, current =>
    if current.isNullish then []
    else
      match current with
      | .obj f => fmWalkLoop rest ((alGet f part).getD .undefVal)
      | .arr xs =>
        fmWalkLoop rest
          (if part ≠ [] && part.all (isDigitChar ·) then xs.getD (digitsToNat part) .undefVal
           else .undefVal)
      | _ => []

/-- The replacement callback of `resolveVariablesWithInline`: the dot-split
root segment is checked against the inline datasource names first; a hit
resolves the remaining path against that datasource's data, otherwise the
full path is resolved against frontmatter. -/
def varReplacer (frontmatter : List (Str × JValue)) (inline : List (Str × InlineDS))
    (path : Str) : Str :=
  match splitChar '.' path with
  | [] => []
  | rootName :: restParts =>
    if rootName = [] then []
    else
      match alGet inline rootName with
      | some ds =>
        let subPath := (restParts.map (fun p => '.' :: p)).flatten.drop 1
        if restParts ≠ [] then
          let resolved := resolveDotPath ds.data subPath
          if resolved.isNullish then [] else jsToString resolved
        else if ds.data.isNullish then [] else jsToString ds.data
      | none => fmWalkLoop (rootName :: restParts) (JValue.obj frontmatter)

/-- The `value.replace(varRegex, replacer)` scan; the skip counter models the
regex engine continuing after each match (whose text is replaced). -/
def varScanAux (replacer : Str → Str) : Str → Nat → Str
  | [], _ => []
  | _ :: rest, Nat.succ k => varScanAux replacer rest k
  | s@(c :: rest), 0 =>
    match matchVarAt s with
    | some (path, len) => replacer path ++ varScanAux replacer rest (len - 1)
    | none => c :: varScanAux replacer rest 0

/-- Model: `resolveVariablesWithInline`: apply the substitution to every attribute
value. -/
def resolveVariablesWithInline (params : List (Str × Str))
    (frontmatter : List (Str × JValue)) (inline : List (Str × InlineDS)) :
    List (Str × Str) :=
  params.map fun kv => (kv.1, varScanAux (varReplacer frontmatter inline) kv.2 0)

/-! ## The processor (`processFile` and `build`) -/
/-- A datasource handle as seen by render capabilities: an opaque external
datasource (identified by a tag) or an inline datasource. -/
inductive DsHandle where
  | ext (tag : Str)
  | inl (ds : InlineDS)

/-- Model: `EmbedResult`. -/
structure EmbedResult where
  content : Str

/-- Model: `EmbedContext` (the markdown helper is a stateless formatting utility,
identical on every call, and is omitted from the context). -/
structure EmbedContext where
  params : List (Str × Str)
  frontmatter : List (Str × JValue)
  datasources : List (Str × DsHandle)
  filePath : Str

/-- Model: `EmbedDefinition`: a render capability (modelled as a pure function —
deterministic, as the idempotence property assumes) plus declared datasource
dependencies. -/
structure EmbedDefinition where
  render : EmbedContext → EmbedResult
  dependsOn : List Str := []

/-- Line-ending configuration. -/
inductive LineEnding where
  | lf
  | crlf
deriving DecidableEq, Repr

/-- Model: `output` section of the configuration (encoding is I/O-level and
unmodelled). -/
structure OutputConfig where
  line_ending : Option LineEnding := none

/-- One datasource configuration entry (only the `path` field matters to the
modelled core). -/
structure DsConfig where
  path : Option Str := none

/-- Model: `EmbedifyConfig`, restricted to the fields the modelled core reads. -/
structure EmbedifyConfig where
  comment_styles : List (Str × CommentStyle) := []
  inline_datasource : Option InlineDsConfig := none
  output : Option OutputConfig := none
  datasources : Option (List (Str × DsConfig)) := none

/-- Model: `TargetConfig` (glob pattern and exclusions are I/O-level). -/
structure TargetConfig where
  comment_style : Str

/-- Observable side effects of processing one document. -/
inductive ProcEvent where
  | warnConflict (name : Str)
  | warnUnknownEmbed (name : Str)
  | renderInvoked (name : Str)
  | fileWrite (content : Str)
deriving DecidableEq, Repr

/-- Model: `ProcessResult`. -/
structure ProcessResult where
  filePath : Str
  success : Bool
  markersUpdated : Nat
  changed : Bool
  error : Option Str := none

/-- The full outcome of `processFile` in the model: the result record, the
emitted effects in order, and the computed final content (`none` when the
no-op fast path or an exception returned before it was computed). -/
structure ProcOutcome where
  result : ProcessResult
  events : List ProcEvent
  final : Option Str

/-- The inline/external merge loop of `processFile` under the conflict
policy: `error` throws on the first collision, `prefer_external` skips the
inline entry, `warn` overwrites and logs. -/
def mergeDS (policy : ConflictPolicy) :
    List (Str × InlineDS) → List (Str × DsHandle) → List ProcEvent →
    List ProcEvent × Except Str (List (Str × DsHandle))
  | [], merged, log => (log, .ok merged)
  | (name, ds) :: rest, merged, log =>
    if alHas merged name then
      match policy with
      | .error =>
        (log, .error (String.toList "Inline datasource \"" ++ name ++
          String.toList "\" conflicts with external datasource (conflict_policy: error)"))
      | .prefer_external => mergeDS policy rest merged log
      | .warn => mergeDS policy rest (alPut merged name (.inl ds)) (log ++ [.warnConflict name])
    else mergeDS policy rest (alPut merged name (.inl ds)) log

/-- Descending-`startIndex` insertion sort
(`[...markers].sort((a, b) => b.startIndex - a.startIndex)`). -/
def insertDesc (m : ParsedMarker) : List ParsedMarker → List ParsedMarker
  | [] => [m]
  | x :: xs => if x.startIndex > m.startIndex then x :: insertDesc m xs else m :: x :: xs

/-- Stable descending sort of the marker list. -/
def sortMarkersDesc : List ParsedMarker → List ParsedMarker
  | [] => []
  | x :: xs => insertDesc x (sortMarkersDesc xs)

/-- The replacement text spliced for one marker: the rendered content bare
between the marker lines in inline mode, and bracketed by single newlines
otherwise. -/
def markerReplacement (m : ParsedMarker) (rendered : Str) : Str :=
  if alGet m.params (String.toList "inline") = some (String.toList "true") then
    m.startMarkerLine ++ rendered ++ m.endMarkerLine
  else
    m.startMarkerLine ++ '\n' :: rendered ++ '\n' :: m.endMarkerLine

/-- The marker-processing loop of `processFile` (already sorted descending):
unknown embeds warn and skip; otherwise parameters are resolved, the embed
rendered, and the replacement spliced at the recorded offsets. -/
def runMarkers (filePath : Str) (frontmatter : List (Str × JValue))
    (inlineDss : List (Str × InlineDS)) (merged : List (Str × DsHandle))
    (embeds : List (Str × EmbedDefinition)) :
    List ParsedMarker → Str → Nat → List ProcEvent → Str × Nat × List ProcEvent
  | [], body, n, log => (body, n, log)
  | m :: rest, body, n, log =>
    match alGet embeds m.templateName with
    | none =>
      runMarkers filePath frontmatter inlineDss merged embeds rest body n
        (log ++ [.warnUnknownEmbed m.templateName])
    | some embed =>
      let resolvedParams := resolveVariablesWithInline m.params frontmatter inlineDss
      let ctx : EmbedContext := ⟨resolvedParams, frontmatter, merged, filePath⟩
      let rendered := (embed.render ctx).content
      let newContent := markerReplacement m rendered
      let body' := body.take m.startIndex ++ newContent ++ body.drop m.endIndex
      runMarkers filePath frontmatter inlineDss merged embeds rest body' (n + 1)
        (log ++ [.renderInvoked m.templateName])

/-- The `crlf` output transform (`finalContent.replace(/\n/g, '\r\n')`). -/
def toCrlf : Str → Str
  | [] => []
  | '\n' :: rest => '\r' :: '\n' :: toCrlf rest
  | c :: rest => c :: toCrlf rest

/-- The inline-data markers of a parsed document with their line numbers
shifted by the frontmatter offset (stages (1)–(2) of `processFile`). -/
def docDataMarkers (pf : ParsedFm) (cs : CommentStyle) : List ParsedInlineData :=
  let frontmatterLineOffset :=
    if pf.raw ≠ [] then (splitChar '\n' pf.raw).length - 1 else 0
  (parseInlineDataMarkers pf.content cs).map fun m =>
    { m with startLine := m.startLine + frontmatterLineOffset
             endLine := m.endLine + frontmatterLineOffset }

/-- The `try` body of `processFile`, stages (1)–(9); all throwing stages
precede the marker loop, so an exception always carries zero counters, as in
the source where the shared result record has not yet been incremented. -/
def processFileCore (P : ExtParsers) (filePath content : Str)
    (targetConfig : TargetConfig) (embeds : List (Str × EmbedDefinition))
    (datasources : List (Str × DsHandle)) (config : EmbedifyConfig)
    (dryRun : Bool) : Except Str ProcOutcome :=
  let base : ProcessResult := ⟨filePath, true, 0, false, none⟩
  match getCommentStyle targetConfig.comment_style config.comment_styles with
  | .error e => .error e
  | .ok cs =>
    match parseFrontmatter P content with
    | .error e => .error e
    | .ok pf =>
      let rawDataMarkers := parseInlineDataMarkers pf.content cs
      let icfg := config.inline_datasource.getD {}
      match buildInlineDatasources P (docDataMarkers pf cs) filePath icfg with
      | .error e => .error e
      | .ok inlineDss =>
        let mergeOut := mergeDS icfg.mergedConflictPolicy inlineDss datasources []
        match mergeOut.2 with
        | .error e => .error e
        | .ok merged =>
          let markers := parseMarkers pf.content cs
          if markers = [] ∧ rawDataMarkers = [] then
            .ok ⟨base, mergeOut.1, none⟩
          else
            let sorted := sortMarkersDesc markers
            let out :=
              runMarkers filePath pf.data inlineDss merged embeds sorted pf.content 0
                mergeOut.1
            let final := pf.raw ++ out.1
            let changed := decide (final ≠ content)
            let lineEnding := (config.output.bind (·.line_ending)).getD .lf
            let outputContent := if lineEnding = .crlf then toCrlf final else final
            let events :=
              if changed && !dryRun then out.2.2 ++ [.fileWrite outputContent]
              else out.2.2
            .ok ⟨{ base with markersUpdated := out.2.1, changed := changed }, events,
              some final⟩

/-- Model: `processFile`: the document-level `catch` marks a failure result with the
captured error and suppresses all effects (every throwing stage precedes the
first effect other than merge warnings, and merge warnings only precede a
throw under the `error` policy, which throws before logging). -/
def processFile (P : ExtParsers) (filePath content : Str)
    (targetConfig : TargetConfig) (embeds : List (Str × EmbedDefinition))
    (datasources : List (Str × DsHandle)) (config : EmbedifyConfig)
    (dryRun : Bool := false) : ProcOutcome :=
  match processFileCore P filePath content targetConfig embeds datasources config dryRun with
  | .ok outcome => outcome
  | .error e =>
    ⟨⟨filePath, false, 0, false, some e⟩, [], none⟩

/-- Model: `BuildResult` (the wall-clock duration is I/O-level). -/
structure BuildResult where
  totalFiles : Nat
  successFiles : Nat
  failedFiles : Nat
  totalMarkersUpdated : Nat
  results : List ProcessResult

/-- Model: `build` over an already-enumerated file list (glob expansion and file
reading are I/O): every file is processed in order and failures do not stop
the batch. -/
def buildFiles (P : ExtParsers) (files : List (Str × Str × TargetConfig))
    (embeds : List (Str × EmbedDefinition)) (datasources : List (Str × DsHandle))
    (config : EmbedifyConfig) (dryRun : Bool := false) : BuildResult :=
  let results := files.map fun f =>
    (processFile P f.1 f.2.1 f.2.2 embeds datasources config dryRun).result
  { totalFiles := results.length
    successFiles := (results.filter (·.success)).length
    failedFiles := (results.filter (!·.success)).length
    totalMarkersUpdated := (results.map (·.markersUpdated)).sum
    results }

/-! ## Dependency graph (`src/core/dependency.ts`)

Path normalization (`node:path.resolve`) is an external collaborator and is
taken as a parameter `resolveP`; every key of the node map is a resolved
path (including the synthetic `embed:<name>` keys, which the source also
passes through `resolve` when querying). -/
/-- Node kind. -/
inductive DepType where
  | document
  | embed
  | datasource
deriving DecidableEq, Repr

/-- Model: `DependencyNode`; the `Set`s are insertion-ordered duplicate-free
lists. -/
structure DepNode where
  type : DepType
  path : Str
  dependsOn : List Str
  dependedBy : List Str
deriving DecidableEq, Repr

/-- The node map (insertion-ordered, keyed by resolved path). -/
abbrev DepNodes := List (Str × DepNode)

/-- Model: `Set.add`. -/
def setAdd (l : List Str) (x : Str) : List Str :=
  if l.contains x then l else l ++ [x]

/-- Insertion-ordered de-duplication (`new Set(...)` of the template
names). -/
def dedupStrs (l : List Str) : List Str :=
  l.foldl setAdd []

/-- Model: `getOrCreateNode`: resolve the path, reuse an existing node (whatever
its type) or append a fresh one; returns the map and the key. -/
def getOrCreateNode (resolveP : Str → Str) (nodes : DepNodes) (ty : DepType)
    (path : Str) : DepNodes × Str :=
  let k := resolveP path
  match alGet nodes k with
  | some _ => (nodes, k)
  | none => (alPut nodes k ⟨ty, k, [], []⟩, k)

/-- Apply a function to the node stored at a key. -/
def updateNode (nodes : DepNodes) (k : Str) (f : DepNode → DepNode) : DepNodes :=
  nodes.map fun kn => if kn.1 = k then (kn.1, f kn.2) else kn

/-- Add a dependency edge: both endpoints are updated
(`from.dependsOn.add(to)`; `to.dependedBy.add(from)`). -/
def addEdge (nodes : DepNodes) (fromK toK : Str) : DepNodes :=
  updateNode (updateNode nodes fromK fun n => { n with dependsOn := setAdd n.dependsOn toK })
    toK fun n => { n with dependedBy := setAdd n.dependedBy fromK }

/-- Model: `analyzeDocument` on already-read content: create the document node, and
for every distinct referenced embed that is registered create the embed node
and the document→embed edge, then for each declared datasource dependency
with a concrete configured path create the datasource node and the
embed→datasource edge.  Parse failures are swallowed (the `catch` block),
leaving the already-created document node. -/
def analyzeDocument (P : ExtParsers) (resolveP : Str → Str) (config : EmbedifyConfig)
    (embeds : List (Str × EmbedDefinition)) (nodes : DepNodes)
    (filePath content : Str) (tc : TargetConfig) : DepNodes :=
  let (nodes1, docK) := getOrCreateNode resolveP nodes .document filePath
  match getCommentStyle tc.comment_style config.comment_styles with
  | .error _ => nodes1
  | .ok cs =>
    match parseFrontmatter P content with
    | .error _ => nodes1
    | .ok pf =>
      let embedNames := dedupStrs ((parseMarkers pf.content cs).map (·.templateName))
      embedNames.foldl
        (fun ns name =>
          match alGet embeds name with
          | none => ns
          | some embed =>
            let (ns1, embedK) :=
              getOrCreateNode resolveP ns .embed (String.toList "embed:" ++ name)
            let ns2 := addEdge ns1 docK embedK
            embed.dependsOn.foldl
              (fun ms dsName =>
                match alGet (config.datasources.getD []) dsName with
                | some dsCfg =>
                  match dsCfg.path with
                  | some p =>
                    let (ms1, dsK) := getOrCreateNode resolveP ms .datasource p
                    addEdge ms1 embedK dsK
                  | none => ms
                | none => ms)
              ns2)
        nodes1

/-- Model: `DependencyGraph.build` over an already-enumerated file list: clear,
then analyze every target file in order. -/
def buildGraph (P : ExtParsers) (resolveP : Str → Str) (config : EmbedifyConfig)
    (embeds : List (Str × EmbedDefinition))
    (docs : List (Str × Str × TargetConfig)) : DepNodes :=
  docs.foldl (fun ns d => analyzeDocument P resolveP config embeds ns d.1 d.2.1 d.2.2) []

/-- Number of map entries not yet visited (the BFS termination measure). -/
def unvisitedCount (nodes : DepNodes) (visited : List Str) : Nat :=
  match nodes with
  | [] => 0
  | kn :: rest => (if kn.1 ∈ visited then 0 else 1) + unvisitedCount rest visited

def unvisitedCount_mono (visited : List Str) (k : Str) :
    ∀ nodes : DepNodes,
      unvisitedCount nodes (k :: visited) ≤ unvisitedCount nodes visited := by
  intro nodes
  induction nodes with
  | nil => simp [unvisitedCount]
  | cons kn rest ih =>
    simp only [unvisitedCount]
    have hhd : (if kn.1 ∈ k :: visited then 0 else 1) ≤
        (if kn.1 ∈ visited then 0 else 1) := by
      by_cases h : kn.1 ∈ visited
      · simp [h, List.mem_cons]
      · split <;> omega
    omega

def unvisitedCount_lt (visited : List Str) (k : Str)
    (hnv : ¬ visited.contains k = true) :
    ∀ nodes : DepNodes, alHas nodes k = true →
      unvisitedCount nodes (k :: visited) < unvisitedCount nodes visited := by
  have hmem : k ∉ visited := fun hm => hnv (List.elem_iff.mpr hm)
  intro nodes
  induction nodes with
  | nil => intro hk; simp [alHas, alGet] at hk
  | cons kn rest ih =>
    intro hk
    obtain ⟨k1, n1⟩ := kn
    by_cases hke : k1 = k
    · have h1 : k1 ∈ k :: visited := by simp [hke]
      have h2 : k1 ∉ visited := by rw [hke]; exact hmem
      have hm := unvisitedCount_mono visited k rest
      simp only [unvisitedCount, if_pos h1, if_neg h2]
      omega
    · have hk' : alHas rest k = true := by
        simp only [alHas, alGet, if_neg hke] at hk ⊢
        exact hk
      have hlt := ih hk'
      have heq : (k1 ∈ k :: visited) ↔ (k1 ∈ visited) := by
        simp [List.mem_cons, hke]
      simp only [unvisitedCount]
      by_cases h : k1 ∈ visited
      · simp only [if_pos h, if_pos (heq.mpr h)]
        omega
      · simp only [if_neg h, if_neg (fun hx => h (heq.mp hx))]
        omega

set_option linter.unusedVariables false in
/-- The BFS loop of `getAffectedDocuments`: pop, skip if visited, mark,
collect documents, push the unvisited `dependedBy` successors that exist in
the map.  Every queued node exists in the map in every reachable state; the
defensive else-branch only serves the termination argument. -/
def bfsLoop (nodes : DepNodes) (queue : List DepNode) (visited affected : List Str) :
    List Str :=
  match queue with
  | [] => affected
  | current :: rest =>
    if visited.contains current.path then bfsLoop nodes rest visited affected
    else if h : alHas nodes current.path = true then
      let visited' := current.path :: visited
      let affected' :=
        if current.type = .document then setAdd affected current.path else affected
      let pushes := current.dependedBy.filterMap fun q =>
        match alGet nodes q with
        | some n => if visited'.contains q then none else some n
        | none => none
      bfsLoop nodes (rest ++ pushes) visited' affected'
    else bfsLoop nodes rest visited affected
termination_by (unvisitedCount nodes visited, queue.length)
decreasing_by
  · apply Prod.Lex.right
    simp
  · apply Prod.Lex.left
    exact unvisitedCount_lt visited current.path
      ‹¬ visited.contains current.path = true› nodes h
  · apply Prod.Lex.right
    simp

/-- Model: `fileName.replace(/([A-Z])/g, '_$1').toLowerCase().replace(/^_/, '')`. -/
def toSnake (s : Str) : Str :=
  let expanded := s.foldr
    (fun c acc => if 'A' ≤ c ∧ c ≤ 'Z' then '_' :: c :: acc else c :: acc) []
  let lowered := expanded.map Char.toLower
  if leadsWith (String.toList "_") lowered then lowered.drop 1 else lowered

/-- Model: `str.replace(needle, '')` for a literal needle (first occurrence only). -/
def removeFirstOccur (needle s : Str) : Str :=
  match firstOccur needle s with
  | none => s
  | some i => s.take i ++ s.drop (i + needle.length)

/-- The start-node resolution of `getAffectedDocuments`: direct lookup, then
the datasource path scan, then embed inference from a `.ts` filename (literal
name, then camel→snake). -/
def resolveStartNode (resolveP : Str → Str) (nodes : DepNodes) (changedPath : Str) :
    Option DepNode :=
  let normalized := resolveP changedPath
  match alGet nodes normalized with
  | some n => some n
  | none =>
    match nodes.find? (fun kn =>
        decide (kn.2.type = .datasource) && decide (kn.2.path = normalized)) with
    | some kn => some kn.2
    | none =>
      if closesWith (String.toList ".ts") changedPath then
        let fileName :=
          removeFirstOccur (String.toList ".ts")
            (((splitChar '/' changedPath).getLast?).getD [])
        if fileName ≠ [] ∧ fileName ≠ String.toList "index" then
          match alGet nodes (resolveP (String.toList "embed:" ++ fileName)) with
          | some n => some n
          | none =>
            alGet nodes (resolveP (String.toList "embed:" ++ toSnake fileName))
        else none
      else none

/-- Model: `getAffectedDocuments`: resolve the start node and collect every
document reachable along `dependedBy` edges; with no start node, fall back
to the (dead in practice) direct document check and otherwise return the
empty list. -/
def getAffectedDocuments (resolveP : Str → Str) (nodes : DepNodes)
    (changedPath : Str) : List Str :=
  let normalized := resolveP changedPath
  match resolveStartNode resolveP nodes changedPath with
  | some start => bfsLoop nodes [start] [] []
  | none =>
    match alGet nodes normalized with
    | some n => if n.type = .document then [normalized] else []
    | none => []

/-! ## Claim theorems -/
/-- Some concrete strings used repeatedly below. -/
def strInline : Str := String.toList "inline"

/-! ### Concrete values shared by witnesses and counterexamples -/
/-- External parsers that are never consulted (documents without YAML/JSON
content). -/
def trivParsers : ExtParsers := ⟨fun _ => .error [], fun _ => .error []⟩

/-- The html comment style. -/
def htmlCS : CommentStyle := ⟨String.toList "<!--", String.toList "-->"⟩

/-- A target configured with the html style. -/
def htmlTC : TargetConfig := ⟨String.toList "html"⟩

/-- A defaulted marker used with `List.getD`. -/
def defaultMarker : ParsedMarker := ⟨0, 0, [], [], [], [], []⟩

/-- An embed that always renders the same string. -/
def constEmbed (out : String) : EmbedDefinition := ⟨fun _ => ⟨String.toList out⟩, []⟩

def c3docInline : Str :=
  String.toList "<!--@embedoc:test_embed id=\"1\" inline=\"true\"-->old<!--@embedoc:end-->"

def c3docBlock : Str :=
  String.toList "<!--@embedoc:test_embed inline=\"false\"-->old<!--@embedoc:end-->"

def c3embeds : List (Str × EmbedDefinition) :=
  [(String.toList "test_embed", constEmbed "new content")]

/-- Concrete inline-data document and datasources for the C5 witness. -/
def c5doc : Str :=
  String.toList "<!--@embedoc-data:db format=\"text\"-->\nv\n<!--@embedoc-data:end-->"

def c5ext : List (Str × DsHandle) := [(String.toList "db", .ext (String.toList "ex"))]

def c5cfgError : EmbedifyConfig :=
  { inline_datasource := some { conflictPolicy := some .error } }

/-- The inline datasource map the pipeline builds for `c5doc`. -/
def c5inline : List (Str × InlineDS) :=
  match buildInlineDatasources trivParsers
      (docDataMarkers ⟨[], c5doc, []⟩ htmlCS) (String.toList "/doc.md")
      (c5cfgError.inline_datasource.getD {}) with
  | .ok l => l
  | .error _ => []

/-- The inline datasource built from `c5doc`. -/
def c5ds : InlineDS :=
  match alGet c5inline (String.toList "db") with
  | some ds => ds
  | none => ⟨.null, [], [], 0, 0, 0, []⟩

/-! ### Dot-path write/read round trip -/
/-- The step function of `resolveDotPath`. -/
def resolveStep (current : JValue) (seg : PathSeg) : JValue :=
  if current.isNullish then current else current.readSeg seg

/-- The two `project.version` declarations used to witness C4. -/
def c4d1 : ParsedInlineData :=
  ⟨String.toList "project.version", String.toList "text", String.toList "1.0.0", 1, 3, 5⟩

/-- The later `project.version` declaration (the one that must win). -/
def c4d2 : ParsedInlineData :=
  ⟨String.toList "project.version", String.toList "text", String.toList "2.0.0", 5, 7, 5⟩

/-- The datasource map built from `[c4d1, c4d2]`. -/
def c4result : List (Str × InlineDS) :=
  [(String.toList "project",
    { data := JValue.obj [(String.toList "version", JValue.str (String.toList "2.0.0"))],
      format := String.toList "yaml",
      documentPath := String.toList "doc.md",
      startLine := 1, endLine := 7, byteSize := 10,
      locations := [⟨String.toList "version", 5, 7, String.toList "text"⟩,
                    ⟨String.toList "version", 1, 3, String.toList "text"⟩] })]

/-- A document whose inline data declares the scalar `project.a` and then
the deeper path `project.a.b` beneath it. -/
def c10doc : Str :=
  String.toList "<!--@embedoc-data:project.a format=\"text\"-->\nx\n<!--@embedoc-data:end-->\n<!--@embedoc-data:project.a.b format=\"text\"-->\ny\n<!--@embedoc-data:end-->"

/-- The failure record `processFile` produces for `c10doc`. -/
def c10badResult : ProcessResult :=
  ⟨String.toList "/bad.md", false, 0, false,
    some (String.toList "TypeError: cannot create property on primitive")⟩

/-- The unterminated example used to witness C6. -/
def c6doc : Str := String.toList "<!--@embedoc:foo-->\nsome text"

/-- A yaml loader returning `{key: "v"}`, concretizing gray-matter's engine
for the C9 scenario. -/
def c9P : ExtParsers :=
  ⟨fun _ => .ok (JValue.obj [(String.toList "key", JValue.str (String.toList "v"))]),
   fun _ => .error []⟩

/-- A document whose frontmatter block carries extra blank lines. -/
def c9doc : Str :=
  String.toList "---\n\nkey: v\n\n---\n<!--@embedoc:foo-->\n<!--@embedoc:end-->"

/-- The text `processFile` computes for `c9doc`: the frontmatter comes back
normalized, not byte-identical. -/
def c9final : Str :=
  String.toList "---\nkey: v\n---\n<!--@embedoc:foo-->\n<!--@embedoc:end-->"

/-- What `parseFrontmatter` yields on `c9doc`. -/
def c9pf : ParsedFm :=
  ⟨[(String.toList "key", JValue.str (String.toList "v"))],
   String.toList "<!--@embedoc:foo-->\n<!--@embedoc:end-->",
   String.toList "---\nkey: v\n---\n"⟩

/-- A valid `dependedBy` walk: consecutive steps follow an edge and every
node on the walk exists in the map. -/
def PathOK (nodes : DepNodes) : List Str → Prop
  | [] => True
  | [a] => alHas nodes a = true
  | a :: b :: rest =>
    (∃ n, alGet nodes a = some n ∧ b ∈ n.dependedBy) ∧ PathOK nodes (b :: rest)

/-- Graph-construction preservation order: every stored node keeps its type
and its incoming (`dependedBy`) edges. -/
def Pres (old new : DepNodes) : Prop :=
  ∀ k n, alGet old k = some n → ∃ n2, alGet new k = some n2 ∧
    n.type = n2.type ∧ ∀ x ∈ n.dependedBy, x ∈ n2.dependedBy

/-- The per-embed step of `analyzeDocument`, factored out. -/
def embedStep (resolveP : Str → Str) (config : EmbedifyConfig)
    (embeds : List (Str × EmbedDefinition)) (docK : Str)
    (ns : DepNodes) (name : Str) : DepNodes :=
  match alGet embeds name with
  | none => ns
  | some embed =>
    let (ns1, embedK) :=
      getOrCreateNode resolveP ns .embed (String.toList "embed:" ++ name)
    let ns2 := addEdge ns1 docK embedK
    embed.dependsOn.foldl
      (fun ms dsName =>
        match alGet (config.datasources.getD []) dsName with
        | some dsCfg =>
          match dsCfg.path with
          | some p =>
            let (ms1, dsK) := getOrCreateNode resolveP ms .datasource p
            addEdge ms1 embedK dsK
          | none => ms
        | none => ms)
      ns2

/-- The datasource step inside `embedStep`, factored out. -/
def dsStep (resolveP : Str → Str) (config : EmbedifyConfig) (embedK : Str)
    (ms : DepNodes) (dsName : Str) : DepNodes :=
  match alGet (config.datasources.getD []) dsName with
  | some dsCfg =>
    match dsCfg.path with
    | some p =>
      let (ms1, dsK) := getOrCreateNode resolveP ms .datasource p
      addEdge ms1 embedK dsK
    | none => ms
  | none => ms

/-- Every stored node's `path` field equals its key. -/
def WK (nodes : DepNodes) : Prop := ∀ kn ∈ nodes, (kn : Str × DepNode).2.path = kn.1

/-- The concrete C1 scenario: a document referencing embed `chart`, which
depends on datasource `DB` configured at path `db.json`. -/
def c1doc : Str := String.toList "<!--@embedoc:chart-->\n<!--@embedoc:end-->"

/-- The `chart` embed, declaring `dependsOn: ['DB']`. -/
def c1chart : EmbedDefinition := ⟨fun _ => ⟨[]⟩, [String.toList "DB"]⟩

/-- A configuration whose `DB` datasource has the concrete path `db.json`. -/
def c1cfg : EmbedifyConfig :=
  { datasources := some [(String.toList "DB", ⟨some (String.toList "db.json")⟩)] }

/-- The single-marker document used for the C2 scenario. -/
def c2doc : Str := String.toList "<!--@embedoc:t-->\nold\n<!--@embedoc:end-->"

/-- The registered embed of the C2 scenario: renders the constant `X`. -/
def c2embeds : List (Str × EmbedDefinition) := [(String.toList "t", constEmbed "X")]

/-- A configuration selecting the `crlf` output line ending. -/
def cfgCrlf : EmbedifyConfig := { output := some ⟨some .crlf⟩ }

/-- What the first pass writes to disk under `crlf`. -/
def c2written : Str :=
  String.toList "<!--@embedoc:t-->\r\nX\r\n<!--@embedoc:end-->"

/-- The lf-processed text of `c2doc` (what the first pass computes and, under
`lf`, writes). -/
def c2F : Str := String.toList "<!--@embedoc:t-->\nX\n<!--@embedoc:end-->"

/-- The marker parsed from `c2doc`. -/
def c2m : ParsedMarker :=
  ⟨0, 41, String.toList "t", [], String.toList "\nold\n",
   String.toList "<!--@embedoc:t-->", String.toList "<!--@embedoc:end-->"⟩

/-- The marker parsed from the once-processed text `c2F`. -/
def c2m2 : ParsedMarker :=
  ⟨0, 39, String.toList "t", [], String.toList "\nX\n",
   String.toList "<!--@embedoc:t-->", String.toList "<!--@embedoc:end-->"⟩

/-! ## Theorems -/

/-! ## General lemmas about the model's primitives -/
theorem alGet_alPut_self {α : Type} (l : List (Str × α)) (k : Str) (v : α) :
    alGet (alPut l k v) k = some v := by
  induction l with
  | nil => simp [alPut, alGet]
  | cons kv rest ih =>
    by_cases h : kv.1 = k
    · simp [alPut, alGet, h]
    · simp only [alPut, alGet, h, if_false, if_neg h]
      exact ih

theorem alGet_alPut_ne {α : Type} (l : List (Str × α)) (k k' : Str) (v : α)
    (h : k ≠ k') : alGet (alPut l k v) k' = alGet l k' := by
  induction l with
  | nil => simp [alPut, alGet, h]
  | cons kv rest ih =>
    by_cases hk : kv.1 = k
    · simp [alPut, alGet, hk, h]
    · simp only [alPut, alGet, if_neg hk]
      split
      · rfl
      · exact ih

theorem leadsWith_append (pre s : Str) : leadsWith pre (pre ++ s) = true := by
  induction pre with
  | nil => rfl
  | cons c rest ih => simp [leadsWith, ih]

theorem drop_append_length {α : Type} (pre s : List α) :
    (pre ++ s).drop pre.length = s := by
  simp

/-- Auxiliary: with no inline-data declarations the inline datasource map is
empty. -/
theorem buildInline_nil (P : ExtParsers) (dp : Str) (cfg : InlineDsConfig) :
    buildInlineDatasources P [] dp cfg = .ok [] := rfl

/-- Auxiliary: merging an empty inline map leaves the external map and emits
no events. -/
theorem mergeDS_nil (policy : ConflictPolicy) (ext : List (Str × DsHandle))
    (log : List ProcEvent) : mergeDS policy [] ext log = (log, .ok ext) := rfl

/-- C3: For every marker whose parsed params map `inline` to the literal
string `"true"`, the rewrite splices `startMarkerLine ++ renderedContent ++
endMarkerLine` with no inserted newlines; for every other marker it splices
with exactly one newline before and after the rendered content.  Stated on a
document whose body parses to that one marker, through the whole
`processFile` pipeline. -/
theorem inline_mode_splice
    (P : ExtParsers) (filePath content : Str) (tc : TargetConfig)
    (embeds : List (Str × EmbedDefinition)) (datasources : List (Str × DsHandle))
    (config : EmbedifyConfig) (cs : CommentStyle) (pf : ParsedFm)
    (m : ParsedMarker) (embed : EmbedDefinition) (r : Str)
    (hcs : getCommentStyle tc.comment_style config.comment_styles = .ok cs)
    (hpf : parseFrontmatter P content = .ok pf)
    (hdm : parseInlineDataMarkers pf.content cs = [])
    (hm : parseMarkers pf.content cs = [m])
    (hembed : alGet embeds m.templateName = some embed)
    (hr : embed.render { params := resolveVariablesWithInline m.params pf.data [],
                         frontmatter := pf.data, datasources := datasources,
                         filePath := filePath } = ⟨r⟩) :
    (processFile P filePath content tc embeds datasources config false).final =
      some (pf.raw ++ (pf.content.take m.startIndex ++
        (if alGet m.params strInline = some (String.toList "true") then
          m.startMarkerLine ++ r ++ m.endMarkerLine
        else
          m.startMarkerLine ++ '\n' :: r ++ '\n' :: m.endMarkerLine) ++
        pf.content.drop m.endIndex)) := by
  unfold processFile processFileCore docDataMarkers
  rw [hcs, hpf]
  dsimp only
  rw [hdm, hm]
  simp only [List.map_nil, buildInline_nil, mergeDS_nil]
  have hsort : sortMarkersDesc [m] = [m] := rfl
  rw [hsort]
  simp only [List.cons_ne_self, false_and, if_false]
  unfold runMarkers
  rw [hembed]
  dsimp only
  rw [hr]
  unfold runMarkers markerReplacement
  simp only [strInline]

/-! ### Lemmas about the conflict-policy merge loop -/
theorem alHas_alPut_other {α : Type} (l : List (Str × α)) (k k' : Str) (v : α)
    (h : k ≠ k') : alHas (alPut l k v) k' = alHas l k' := by
  simp [alHas, alGet_alPut_ne l k k' v h]

theorem mergeDS_untouched (policy : ConflictPolicy) (name : Str) :
    ∀ (inline : List (Str × InlineDS)) (cur : List (Str × DsHandle))
      (log log' : List ProcEvent) (merged : List (Str × DsHandle)),
      mergeDS policy inline cur log = (log', .ok merged) →
      name ∉ inline.map Prod.fst →
      alGet merged name = alGet cur name ∧ ∀ e ∈ log, e ∈ log' := by
  intro inline
  induction inline with
  | nil =>
    intro cur log log' merged hm _
    simp only [mergeDS] at hm
    cases hm
    exact ⟨rfl, fun e he => he⟩
  | cons hd rest ih =>
    intro cur log log' merged hm hnin
    obtain ⟨n, d⟩ := hd
    have hne : n ≠ name := by
      intro h
      apply hnin
      simp only [List.map_cons]
      rw [← h]
      exact List.mem_cons_self _ _
    have hrest : name ∉ rest.map Prod.fst := by
      intro h
      apply hnin
      simp only [List.map_cons]
      exact List.mem_cons_of_mem _ h
    simp only [mergeDS] at hm
    split at hm
    · cases policy with
      | error => simp at hm
      | prefer_external =>
        exact ih cur log log' merged hm hrest
      | warn =>
        have := ih (alPut cur n (.inl d)) (log ++ [.warnConflict n]) log' merged hm hrest
        refine ⟨?_, ?_⟩
        · rw [this.1, alGet_alPut_ne cur n name (.inl d) hne]
        · exact fun e he => this.2 e (by simp [he])
    · have := ih (alPut cur n (.inl d)) log log' merged hm hrest
      refine ⟨?_, this.2⟩
      rw [this.1, alGet_alPut_ne cur n name (.inl d) hne]

theorem mergeDS_prefer_external (name : Str) :
    ∀ (inline : List (Str × InlineDS)) (cur : List (Str × DsHandle))
      (log log' : List ProcEvent) (merged : List (Str × DsHandle)),
      mergeDS .prefer_external inline cur log = (log', .ok merged) →
      alHas cur name = true →
      alGet merged name = alGet cur name := by
  intro inline
  induction inline with
  | nil =>
    intro cur log log' merged hm _
    simp only [mergeDS] at hm
    cases hm
    rfl
  | cons hd rest ih =>
    intro cur log log' merged hm hhas
    obtain ⟨n, d⟩ := hd
    simp only [mergeDS] at hm
    split at hm
    · exact ih cur log log' merged hm hhas
    · rename_i hnot
      have hne : n ≠ name := by
        intro h
        rw [h] at hnot
        exact hnot hhas
      have hhas' : alHas (alPut cur n (.inl d)) name = true := by
        rw [alHas_alPut_other cur n name (.inl d) hne]
        exact hhas
      have := ih (alPut cur n (.inl d)) log log' merged hm hhas'
      rw [this, alGet_alPut_ne cur n name (.inl d) hne]

theorem mergeDS_warn_hit (name : Str) (ds : InlineDS) :
    ∀ (inline : List (Str × InlineDS)) (cur : List (Str × DsHandle))
      (log log' : List ProcEvent) (merged : List (Str × DsHandle)),
      mergeDS .warn inline cur log = (log', .ok merged) →
      alGet inline name = some ds →
      (inline.map Prod.fst).Nodup →
      alHas cur name = true →
      alGet merged name = some (.inl ds) ∧ ProcEvent.warnConflict name ∈ log' := by
  intro inline
  induction inline with
  | nil => intro _ _ _ _ _ hget; simp [alGet] at hget
  | cons hd rest ih =>
    intro cur log log' merged hm hget hnd hhas
    obtain ⟨n, d⟩ := hd
    by_cases hn : n = name
    · subst hn
      have hdds : d = ds := by
        simp only [alGet, if_pos rfl] at hget
        exact Option.some.inj hget
      rw [← hdds]
      simp only [mergeDS, if_pos hhas] at hm
      have hnin : n ∉ rest.map Prod.fst := by
        rw [List.map_cons] at hnd
        exact (List.nodup_cons.mp hnd).1
      have hu := mergeDS_untouched .warn n rest (alPut cur n (.inl d))
        (log ++ [.warnConflict n]) log' merged hm hnin
      refine ⟨?_, ?_⟩
      · rw [hu.1, alGet_alPut_self]
      · exact hu.2 _ (by simp)
    · have hget' : alGet rest name = some ds := by
        simpa only [alGet, if_neg hn] using hget
      have hnd' : (rest.map Prod.fst).Nodup := (List.nodup_cons.mp hnd).2
      have hne : n ≠ name := hn
      simp only [mergeDS] at hm
      split at hm
      · have hhas' : alHas (alPut cur n (.inl d)) name = true := by
          rw [alHas_alPut_other cur n name (.inl d) hne]; exact hhas
        exact ih (alPut cur n (.inl d)) (log ++ [.warnConflict n]) log' merged hm
          hget' hnd' hhas'
      · have hhas' : alHas (alPut cur n (.inl d)) name = true := by
          rw [alHas_alPut_other cur n name (.inl d) hne]; exact hhas
        exact ih (alPut cur n (.inl d)) log log' merged hm hget' hnd' hhas'

theorem mergeDS_error_conflict (name : Str) (ds : InlineDS) :
    ∀ (inline : List (Str × InlineDS)) (cur : List (Str × DsHandle))
      (log : List ProcEvent),
      alGet inline name = some ds → alHas cur name = true →
      ∃ e, mergeDS .error inline cur log = (log, .error e) := by
  intro inline
  induction inline with
  | nil => intro _ _ hget; simp [alGet] at hget
  | cons hd rest ih =>
    intro cur log hget hhas
    obtain ⟨n, d⟩ := hd
    by_cases hcol : alHas cur n = true
    · refine ⟨String.toList "Inline datasource \"" ++ n ++
        String.toList "\" conflicts with external datasource (conflict_policy: error)", ?_⟩
      simp only [mergeDS, if_pos hcol]
    · have hne : n ≠ name := by
        intro h
        rw [h] at hcol
        exact hcol hhas
      have hget' : alGet rest name = some ds := by
        simpa only [alGet, if_neg hne] using hget
      have hhas' : alHas (alPut cur n (.inl d)) name = true := by
        rw [alHas_alPut_other cur n name (.inl d) hne]; exact hhas
      obtain ⟨e, he⟩ := ih (alPut cur n (.inl d)) log hget' hhas'
      refine ⟨e, ?_⟩
      simp only [mergeDS, if_neg hcol]
      exact he

/-- Witness for the C3 theorem: the repository's own processor test case,
inline and non-inline. -/
theorem inline_mode_splice_witness :
    (processFile trivParsers (String.toList "/doc.md") c3docInline htmlTC c3embeds []
        {} false).final =
      some (String.toList
        "<!--@embedoc:test_embed id=\"1\" inline=\"true\"-->new content<!--@embedoc:end-->") ∧
    (processFile trivParsers (String.toList "/doc.md") c3docBlock htmlTC c3embeds []
        {} false).final =
      some (String.toList
        "<!--@embedoc:test_embed inline=\"false\"-->\nnew content\n<!--@embedoc:end-->") := by
  constructor
  · exact inline_mode_splice trivParsers (String.toList "/doc.md") c3docInline htmlTC
      c3embeds [] {} htmlCS ⟨[], c3docInline, []⟩
      ((parseMarkers c3docInline htmlCS).getD 0 defaultMarker)
      (constEmbed "new content") (String.toList "new content")
      rfl rfl rfl rfl rfl rfl
  · exact inline_mode_splice trivParsers (String.toList "/doc.md") c3docBlock htmlTC
      c3embeds [] {} htmlCS ⟨[], c3docBlock, []⟩
      ((parseMarkers c3docBlock htmlCS).getD 0 defaultMarker)
      (constEmbed "new content") (String.toList "new content")
      rfl rfl rfl rfl rfl rfl

/-- C5: When an inline datasource name collides with an external one:
policy `error` throws, aborting the document before any marker is rendered
or written (failure result, zero markers updated, no effects); policy
`prefer_external` drops the inline entry, so the merged map answers with the
external datasource alone; policy `warn` (the default) puts the inline
datasource in the merged map, shadowing the external one, and logs a
warning. -/
theorem conflict_policy_matrix :
    (∀ (P : ExtParsers) (filePath content : Str) (tc : TargetConfig)
        (embeds : List (Str × EmbedDefinition)) (datasources : List (Str × DsHandle))
        (config : EmbedifyConfig) (cs : CommentStyle) (pf : ParsedFm)
        (inline : List (Str × InlineDS)) (name : Str) (ds : InlineDS),
      getCommentStyle tc.comment_style config.comment_styles = .ok cs →
      parseFrontmatter P content = .ok pf →
      buildInlineDatasources P (docDataMarkers pf cs) filePath
          (config.inline_datasource.getD {}) = .ok inline →
      (config.inline_datasource.getD {}).mergedConflictPolicy = .error →
      alGet inline name = some ds →
      alHas datasources name = true →
      (processFile P filePath content tc embeds datasources config false).result.success
          = false ∧
      (processFile P filePath content tc embeds datasources config false).result.error.isSome
          = true ∧
      (processFile P filePath content tc embeds datasources config false).result.markersUpdated
          = 0 ∧
      (processFile P filePath content tc embeds datasources config false).result.changed
          = false ∧
      (processFile P filePath content tc embeds datasources config false).events = [] ∧
      (processFile P filePath content tc embeds datasources config false).final = none) ∧
    (∀ (inline : List (Str × InlineDS)) (ext merged : List (Str × DsHandle))
        (log log' : List ProcEvent) (name : Str),
      mergeDS .prefer_external inline ext log = (log', .ok merged) →
      alHas ext name = true →
      alGet merged name = alGet ext name) ∧
    (∀ (inline : List (Str × InlineDS)) (ext merged : List (Str × DsHandle))
        (log log' : List ProcEvent) (name : Str) (ds : InlineDS),
      mergeDS .warn inline ext log = (log', .ok merged) →
      alGet inline name = some ds →
      (inline.map Prod.fst).Nodup →
      alHas ext name = true →
      alGet merged name = some (.inl ds) ∧ ProcEvent.warnConflict name ∈ log') := by
  refine ⟨?_, ?_, ?_⟩
  · intro P filePath content tc embeds datasources config cs pf inline name ds
      hcs hpf hbuild hpol hget hhas
    obtain ⟨e, he⟩ := mergeDS_error_conflict name ds inline datasources [] hget hhas
    unfold processFile processFileCore
    rw [hcs, hpf]
    dsimp only
    rw [hbuild]
    dsimp only
    rw [hpol, he]
    exact ⟨rfl, rfl, rfl, rfl, rfl, rfl⟩
  · intro inline ext merged log log' name hm hhas
    exact mergeDS_prefer_external name inline ext log log' merged hm hhas
  · intro inline ext merged log log' name ds hm hget hnd hhas
    exact mergeDS_warn_hit name ds inline ext log log' merged hm hget hnd hhas

/-- Witness for the C5 theorem at a concrete collision. -/
theorem conflict_policy_matrix_witness :
    ((processFile trivParsers (String.toList "/doc.md") c5doc htmlTC [] c5ext
        c5cfgError false).result.success = false ∧
     (processFile trivParsers (String.toList "/doc.md") c5doc htmlTC [] c5ext
        c5cfgError false).result.error.isSome = true ∧
     (processFile trivParsers (String.toList "/doc.md") c5doc htmlTC [] c5ext
        c5cfgError false).result.markersUpdated = 0 ∧
     (processFile trivParsers (String.toList "/doc.md") c5doc htmlTC [] c5ext
        c5cfgError false).result.changed = false ∧
     (processFile trivParsers (String.toList "/doc.md") c5doc htmlTC [] c5ext
        c5cfgError false).events = [] ∧
     (processFile trivParsers (String.toList "/doc.md") c5doc htmlTC [] c5ext
        c5cfgError false).final = none) ∧
    alGet (mergeDS .prefer_external c5inline c5ext []).2.toOption.get!
        (String.toList "db") = alGet c5ext (String.toList "db") ∧
    (alGet (mergeDS .warn c5inline c5ext []).2.toOption.get! (String.toList "db")
        = some (.inl c5ds) ∧
      ProcEvent.warnConflict (String.toList "db") ∈ (mergeDS .warn c5inline c5ext []).1) := by
  refine ⟨?_, ?_, ?_⟩
  · exact conflict_policy_matrix.1 trivParsers (String.toList "/doc.md") c5doc htmlTC
      [] c5ext c5cfgError htmlCS ⟨[], c5doc, []⟩ c5inline (String.toList "db") c5ds
      rfl rfl rfl rfl rfl rfl
  · exact conflict_policy_matrix.2.1 c5inline c5ext
      (mergeDS .prefer_external c5inline c5ext []).2.toOption.get! []
      (mergeDS .prefer_external c5inline c5ext []).1 (String.toList "db") rfl rfl
  · exact conflict_policy_matrix.2.2 c5inline c5ext
      (mergeDS .warn c5inline c5ext []).2.toOption.get! []
      (mergeDS .warn c5inline c5ext []).1 (String.toList "db") c5ds rfl rfl
      (by decide) rfl

theorem resolveDotPath_eq_fold (v : JValue) (path : Str) :
    resolveDotPath v path = (parseDotPath path).foldl resolveStep v := rfl

theorem arrSet_getD (xs : List JValue) (n : Nat) (v : JValue) :
    ((arrSet xs n v)[n]?).getD .undefVal = v := by
  unfold arrSet
  split
  · rename_i h
    simp [List.getElem?_set_self, h]
  · rename_i h
    rw [List.append_assoc, List.getElem?_append_right (by omega)]
    have h2 : (List.replicate (n - xs.length) JValue.undefVal).length ≤ n - xs.length := by
      simp
    rw [List.getElem?_append_right h2]
    simp

/-- A successful non-trivial `setDotPath` write always yields an object or
an array (never a primitive), so a subsequent read can keep walking. -/
theorem setSegs_ok_notNullish (path : Str) :
    ∀ (segs : List PathSeg) (base v out : JValue),
      segs ≠ [] →
      setSegs path segs base v = .ok out →
      out.isNullish = false := by
  intro segs
  match segs with
  | [] => intro base v out h; exact absurd rfl h
  | [last] =>
    intro base v out _ hset
    unfold setSegs assignSeg at hset
    cases base <;> cases last <;> simp_all <;> simp [← hset, JValue.isNullish]
  | seg1 :: seg2 :: rest =>
    intro base v out _ hset
    cases seg1 with
    | idx n => simp [setSegs] at hset
    | key k =>
      cases base <;> simp [setSegs] at hset
      rename_i fields
      split at hset
      · cases hset
        simp [JValue.isNullish]
      · simp at hset

/-- Reading back the exact path just written returns the written value. -/
theorem setSegs_resolve (path : Str) :
    ∀ (segs : List PathSeg) (base v out : JValue),
      segs ≠ [] →
      setSegs path segs base v = .ok out →
      segs.foldl resolveStep out = v := by
  intro segs
  induction segs with
  | nil => intro base v out h; exact absurd rfl h
  | cons seg1 rest ih =>
    intro base v out _ hset
    cases hrest : rest with
    | nil =>
      subst hrest
      unfold setSegs assignSeg at hset
      cases base <;> cases seg1 <;> simp_all <;> rw [← hset] <;>
        simp [List.foldl, resolveStep, JValue.isNullish, JValue.readSeg,
          alGet_alPut_self, arrSet_getD]
    | cons seg2 rest2 =>
      subst hrest
      cases seg1 with
      | idx n => simp [setSegs] at hset
      | key k =>
        cases base <;> simp [setSegs] at hset
        rename_i fields
        split at hset
        · rename_i child' hchild
          cases hset
          have hstep : resolveStep (JValue.obj (alPut fields k child')) (.key k)
              = child' := by
            simp [resolveStep, JValue.isNullish, JValue.readSeg, alGet_alPut_self]
          rw [List.foldl_cons, hstep]
          exact ih _ v child' (by simp) hchild
        · simp at hset

/-! ### Grouping and lookup lemmas for `buildInlineDatasources` -/
theorem alPut_keys_mem {α : Type} (l : List (Str × α)) (k k' : Str) (v : α) :
    k' ∈ (alPut l k v).map Prod.fst → k' ∈ l.map Prod.fst ∨ k' = k := by
  induction l with
  | nil =>
    intro h
    simp only [alPut, List.map_cons, List.map_nil, List.mem_singleton] at h
    exact Or.inr h
  | cons kv rest ih =>
    intro h
    simp only [alPut] at h
    split at h
    · simp only [List.map_cons, List.mem_cons] at h
      rcases h with h | h
      · exact Or.inr h
      · rw [List.map_cons]
        exact Or.inl (List.mem_cons_of_mem _ h)
    · simp only [List.map_cons, List.mem_cons] at h
      rcases h with h | h
      · rw [List.map_cons, h]
        exact Or.inl (List.mem_cons_self _ _)
      · rcases ih h with h2 | h2
        · rw [List.map_cons]
          exact Or.inl (List.mem_cons_of_mem _ h2)
        · exact Or.inr h2

theorem alPut_keys_nodup {α : Type} (l : List (Str × α)) (k : Str) (v : α)
    (h : (l.map Prod.fst).Nodup) : ((alPut l k v).map Prod.fst).Nodup := by
  induction l with
  | nil => simp [alPut]
  | cons kv rest ih =>
    rw [List.map_cons, List.nodup_cons] at h
    by_cases hk : kv.1 = k
    · simp only [alPut, if_pos hk, List.map_cons, List.nodup_cons]
      exact ⟨hk ▸ h.1, h.2⟩
    · simp only [alPut, if_neg hk, List.map_cons, List.nodup_cons]
      refine ⟨?_, ih h.2⟩
      intro hmem
      rcases alPut_keys_mem rest k kv.1 v hmem with h2 | h2
      · exact h.1 h2
      · exact hk h2

theorem vag_get (cfg : InlineDsConfig) :
    ∀ (l : List ParsedInlineData) (acc out : List (Str × List ParsedInlineData)),
      validateAndGroup cfg l acc = .ok out → ∀ r : Str,
      (alGet out r).getD [] =
        (alGet acc r).getD [] ++ l.filter (fun d => getRootName d.name = r) ∧
      (alGet out r).isSome =
        ((alGet acc r).isSome || l.any (fun d => decide (getRootName d.name = r))) := by
  intro l
  induction l with
  | nil =>
    intro acc out h r
    simp only [validateAndGroup] at h
    cases h
    simp
  | cons d rest ih =>
    intro acc out h r
    simp only [validateAndGroup] at h
    split at h
    · simp at h
    · split at h
      · simp at h
      · have := ih (alPut acc (getRootName d.name)
          ((alGet acc (getRootName d.name)).getD [] ++ [d])) out h r
        by_cases hr : getRootName d.name = r
        · rw [hr] at this
          rw [this.1, this.2, alGet_alPut_self]
          constructor
          · simp [List.filter_cons, hr]
          · simp [List.any_cons, hr]
        · rw [this.1, this.2, alGet_alPut_ne _ _ _ _ hr]
          constructor
          · simp [List.filter_cons, hr]
          · simp [List.any_cons, hr]

theorem vag_keys_nodup (cfg : InlineDsConfig) :
    ∀ (l : List ParsedInlineData) (acc out : List (Str × List ParsedInlineData)),
      validateAndGroup cfg l acc = .ok out →
      (acc.map Prod.fst).Nodup → (out.map Prod.fst).Nodup := by
  intro l
  induction l with
  | nil =>
    intro acc out h hn
    simp only [validateAndGroup] at h
    cases h
    exact hn
  | cons d rest ih =>
    intro acc out h hn
    simp only [validateAndGroup] at h
    split at h
    · simp at h
    · split at h
      · simp at h
      · exact ih _ out h (alPut_keys_nodup _ _ _ hn)

theorem brl_preserve (P : ExtParsers) (cfg : InlineDsConfig) (dp r : Str) :
    ∀ (groups : List (Str × List ParsedInlineData)) (acc out : List (Str × InlineDS)),
      buildRootsLoop P cfg dp groups acc = .ok out →
      r ∉ groups.map Prod.fst →
      alGet out r = alGet acc r := by
  intro groups
  induction groups with
  | nil =>
    intro acc out h _
    simp only [buildRootsLoop] at h
    cases h
    rfl
  | cons g rest ih =>
    intro acc out h hnin
    simp only [buildRootsLoop] at h
    split at h
    · simp at h
    · rename_i ds hds
      have hne : g.1 ≠ r := by
        intro he
        exact hnin (by simp [← he])
      have hrest : r ∉ rest.map Prod.fst := by
        intro hm
        exact hnin (by simp [hm])
      rw [ih _ out h hrest, alGet_alPut_ne _ _ _ _ hne]

theorem brl_get (P : ExtParsers) (cfg : InlineDsConfig) (dp : Str) :
    ∀ (groups : List (Str × List ParsedInlineData)) (acc out : List (Str × InlineDS)),
      buildRootsLoop P cfg dp groups acc = .ok out →
      (groups.map Prod.fst).Nodup →
      ∀ (r : Str) (items : List ParsedInlineData), alGet groups r = some items →
        ∃ ds, buildRoot P cfg dp r items = .ok ds ∧ alGet out r = some ds := by
  intro groups
  induction groups with
  | nil => intro _ _ _ _ r items hg; simp [alGet] at hg
  | cons g rest ih =>
    intro acc out h hnd r items hg
    obtain ⟨r0, items0⟩ := g
    simp only [buildRootsLoop] at h
    split at h
    · simp at h
    · rename_i ds0 hds0
      by_cases hr : r0 = r
      · subst hr
        have hit : items = items0 := by
          simp only [alGet, if_pos rfl] at hg
          exact (Option.some.inj hg).symm
        subst hit
        have hnin : r0 ∉ rest.map Prod.fst := by
          rw [List.map_cons] at hnd
          exact (List.nodup_cons.mp hnd).1
        refine ⟨ds0, hds0, ?_⟩
        rw [brl_preserve P cfg dp r0 rest _ out h hnin, alGet_alPut_self]
      · have hg' : alGet rest r = some items := by
          simpa only [alGet, if_neg hr] using hg
        have hnd' : (rest.map Prod.fst).Nodup := by
          rw [List.map_cons] at hnd
          exact (List.nodup_cons.mp hnd).2
        exact ih _ out h hnd' r items hg'

/-! ### Root-name and path arithmetic -/
theorem firstOccur_dot (root p : Str) (h : '.' ∉ root) :
    firstOccur (String.toList ".") (root ++ '.' :: p) = some root.length := by
  induction root with
  | nil => simp [firstOccur, leadsWith]
  | cons c rest ih =>
    have hc : c ≠ '.' := by
      intro he
      exact h (by simp [he])
    have hrest : '.' ∉ rest := by
      intro hm
      exact h (by simp [hm])
    have hlw : leadsWith (String.toList ".") (c :: (rest ++ '.' :: p)) = false := by
      show leadsWith ['.'] (c :: (rest ++ '.' :: p)) = false
      unfold leadsWith
      simp [Ne.symm hc]
    simp only [List.cons_append, firstOccur, hlw, Bool.false_eq_true, if_false,
      List.append_eq]
    rw [ih hrest]
    simp

theorem getRootName_append (root p : Str) (h : '.' ∉ root) :
    getRootName (root ++ '.' :: p) = root := by
  unfold getRootName
  rw [firstOccur_dot root p h]
  exact List.take_left root ('.' :: p)

theorem drop_root_dot (root p : Str) :
    (root ++ '.' :: p).drop (root.length + 1) = p := by
  induction root with
  | nil => simp
  | cons c rest ih => simp [ih]

theorem append_dot_ne_root (root p : Str) : root ++ '.' :: p ≠ root := by
  intro h
  have := congrArg List.length h
  simp at this

theorem setSegs_obj_out (path : Str) :
    ∀ (segs : List PathSeg) (f : List (Str × JValue)) (v out : JValue),
      segs ≠ [] →
      setSegs path segs (.obj f) v = .ok out →
      ∃ w, out = JValue.obj w := by
  intro segs
  match segs with
  | [] => intro f v out h; exact absurd rfl h
  | [last] =>
    intro f v out _ hset
    cases last with
    | key k =>
      simp only [setSegs, assignSeg] at hset
      cases hset
      exact ⟨_, rfl⟩
    | idx n =>
      simp only [setSegs, assignSeg] at hset
      cases hset
      exact ⟨_, rfl⟩
  | seg1 :: seg2 :: rest =>
    intro f v out _ hset
    cases seg1 with
    | idx n => simp [setSegs] at hset
    | key k =>
      simp only [setSegs] at hset
      split at hset
      · cases hset
        exact ⟨_, rfl⟩
      · simp at hset

/-- C4: For every document whose inline-data declarations contain two
declarations of the same dotted path `root.p` (one earlier, one later, with
any other declarations belonging to other root names), the built inline
datasource for that root name holds the later declaration's parsed value at
that path: last declaration in document order wins. -/
theorem last_write_wins
    (P : ExtParsers) (cfg : InlineDsConfig) (dp root p : Str)
    (pre mid : List ParsedInlineData) (d1 d2 : ParsedInlineData)
    (v2 : JValue) (m : List (Str × InlineDS))
    (hdot : '.' ∉ root)
    (hn1 : d1.name = root ++ '.' :: p)
    (hn2 : d2.name = root ++ '.' :: p)
    (hothers : ∀ d ∈ pre ++ mid, getRootName d.name ≠ root)
    (hsegs : parseDotPath p ≠ [])
    (hv2 : parseInlineContent P d2.content d2.format
        ⟨cfg.mergedStripCodeFences⟩ = .ok v2)
    (hbuild : buildInlineDatasources P (pre ++ d1 :: mid ++ [d2]) dp cfg = .ok m) :
    ∃ ds, alGet m root = some ds ∧ ds.get p = v2 := by
  have hroot1 : getRootName d1.name = root := by rw [hn1]; exact getRootName_append root p hdot
  have hroot2 : getRootName d2.name = root := by rw [hn2]; exact getRootName_append root p hdot
  unfold buildInlineDatasources at hbuild
  cases hvg : validateAndGroup cfg (pre ++ d1 :: mid ++ [d2]) [] with
  | error e => rw [hvg] at hbuild; simp at hbuild
  | ok groups =>
    rw [hvg] at hbuild
    have hnd := vag_keys_nodup cfg _ [] groups hvg (by simp)
    have hg := vag_get cfg _ [] groups hvg root
    have hfil : (pre ++ d1 :: mid ++ [d2]).filter
        (fun d => decide (getRootName d.name = root)) = [d1, d2] := by
      have hpre : pre.filter (fun d => decide (getRootName d.name = root)) = [] := by
        rw [List.filter_eq_nil_iff]
        intro d hd
        simp only [decide_eq_true_eq]
        exact hothers d (List.mem_append_left _ hd)
      have hmid : mid.filter (fun d => decide (getRootName d.name = root)) = [] := by
        rw [List.filter_eq_nil_iff]
        intro d hd
        simp only [decide_eq_true_eq]
        exact hothers d (List.mem_append_right _ hd)
      rw [List.filter_append, List.filter_append, hpre]
      simp [List.filter_cons, hroot1, hroot2, hmid]
    cases halg : alGet groups root with
    | none =>
      rw [halg] at hg
      have h2 := hg.2
      simp only [Option.isSome_none, alGet, Option.isSome_some] at h2
      have : (pre ++ d1 :: mid ++ [d2]).any
          (fun d => decide (getRootName d.name = root)) = true := by
        rw [List.any_eq_true]
        refine ⟨d1, ?_, by simp [hroot1]⟩
        simp
      rw [this] at h2
      simp at h2
    | some items =>
      rw [halg] at hg
      have hitems : items = [d1, d2] := by
        have h1 := hg.1
        rw [hfil] at h1
        simpa [alGet] using h1
      subst hitems
      obtain ⟨ds, hbr, hout⟩ := brl_get P cfg dp groups [] m hbuild hnd root [d1, d2] halg
      refine ⟨ds, hout, ?_⟩
      -- unpack buildRoot
      have hfind : [d1, d2].find? (fun i => decide (i.name = root)) = none := by
        have h1 : d1.name ≠ root := by rw [hn1]; exact append_dot_ne_root root p
        have h2 : d2.name ≠ root := by rw [hn2]; exact append_dot_ne_root root p
        simp [List.find?, h1, h2]
      unfold buildRoot at hbr
      rw [hfind] at hbr
      have hg1 : (decide (d1.name ≠ root) &&
          leadsWith (root ++ String.toList ".") d1.name) = true := by
        have h1 : d1.name ≠ root := by rw [hn1]; exact append_dot_ne_root root p
        have h2 : leadsWith (root ++ String.toList ".") d1.name = true := by
          rw [hn1]
          have hre : root ++ '.' :: p = (root ++ String.toList ".") ++ p := by simp
          rw [hre]
          exact leadsWith_append _ _
        simp only [Bool.and_eq_true, decide_eq_true_eq]
        exact ⟨h1, by simpa using h2⟩
      have hg2 : (decide (d2.name ≠ root) &&
          leadsWith (root ++ String.toList ".") d2.name) = true := by
        have h1 : d2.name ≠ root := by rw [hn2]; exact append_dot_ne_root root p
        have h2 : leadsWith (root ++ String.toList ".") d2.name = true := by
          rw [hn2]
          have hre : root ++ '.' :: p = (root ++ String.toList ".") ++ p := by simp
          rw [hre]
          exact leadsWith_append _ _
        simp only [Bool.and_eq_true, decide_eq_true_eq]
        exact ⟨h1, by simpa using h2⟩
      simp only [applyDotItems, hg1, hg2, if_true] at hbr
      have hsub1 : d1.name.drop (root.length + 1) = p := by
        rw [hn1]; exact drop_root_dot root p
      have hsub2 : d2.name.drop (root.length + 1) = p := by
        rw [hn2]; exact drop_root_dot root p
      rw [hsub1, hsub2, hv2] at hbr
      cases hp1 : parseInlineContent P d1.content d1.format
          ⟨cfg.mergedStripCodeFences⟩ with
      | error e =>
        rw [hp1] at hbr
        simp at hbr
      | ok v1 =>
        rw [hp1] at hbr
        dsimp only at hbr
        cases hsd1 : setDotPath [] p v1 with
        | error e =>
          rw [hsd1] at hbr
          dsimp only [Except.map] at hbr
          exact Except.noConfusion hbr
        | ok f1 =>
          rw [hsd1] at hbr
          dsimp only [Except.map] at hbr
          cases hsd2 : setDotPath f1 p v2 with
          | error e =>
            rw [hsd2] at hbr
            dsimp only [Except.map] at hbr
            exact Except.noConfusion hbr
          | ok f2 =>
            rw [hsd2] at hbr
            dsimp only [Except.map] at hbr
            cases hbr' : hbr
            -- now ds is the constructed datasource with data = .obj f2
            show InlineDS.get _ p = v2
            unfold InlineDS.get mkInlineDS
            dsimp only
            -- read back the second write
            unfold setDotPath at hsd2
            rw [if_neg hsegs] at hsd2
            cases hss : setSegs p (parseDotPath p) (.obj f1) v2 with
            | error e => rw [hss] at hsd2; simp at hsd2
            | ok out =>
              obtain ⟨w, hw⟩ := setSegs_obj_out p (parseDotPath p) f1 v2 out hsegs hss
              subst hw
              rw [hss] at hsd2
              dsimp only at hsd2
              cases hsd2
              rw [resolveDotPath_eq_fold]
              exact setSegs_resolve p (parseDotPath p) (.obj f1) v2 (.obj f2) hsegs hss

theorem last_write_wins_witness :
    ∃ ds, alGet c4result (String.toList "project") = some ds ∧
      InlineDS.get ds (String.toList "version") =
        JValue.str (String.toList "2.0.0") :=
  last_write_wins trivParsers {} (String.toList "doc.md") (String.toList "project")
    (String.toList "version") [] [] c4d1 c4d2
    (JValue.str (String.toList "2.0.0")) c4result
    (by decide) rfl rfl (by simp) (by decide) rfl rfl

theorem setSegs_fresh_ok (path : Str) (v : JValue) :
    ∀ (segs : List PathSeg), segs ≠ [] →
      (∀ s ∈ segs.dropLast, ∃ k, s = PathSeg.key k) →
      ∃ out, setSegs path segs (JValue.obj []) v = .ok out := by
  intro segs
  induction segs with
  | nil => intro h; exact absurd rfl h
  | cons s1 rest ih =>
    intro _ hkeys
    cases rest with
    | nil =>
      cases s1 with
      | key k => exact ⟨_, rfl⟩
      | idx n => exact ⟨_, rfl⟩
    | cons s2 rest2 =>
      obtain ⟨k, hk⟩ := hkeys s1 (by simp [List.dropLast])
      subst hk
      cases s2 with
      | idx m =>
        cases rest2 with
        | nil => exact ⟨_, rfl⟩
        | cons s3 rest3 =>
          exfalso
          obtain ⟨k2, hk2⟩ := hkeys (PathSeg.idx m) (by simp [List.dropLast])
          cases hk2
      | key k2 =>
        have hkeys2 : ∀ s ∈ (PathSeg.key k2 :: rest2).dropLast, ∃ kk, s = PathSeg.key kk := by
          intro s hs
          apply hkeys
          simp [List.dropLast] at hs ⊢
          exact Or.inr hs
        obtain ⟨out, hout⟩ := ih (by simp) hkeys2
        refine ⟨JValue.obj (alPut [] k out), ?_⟩
        simp only [setSegs, childFor, alGet, hout]

theorem setSegs_idx_middle (path : Str) (v : JValue) :
    ∀ (pre : List PathSeg) (n : Nat) (s2 : PathSeg) (rest : List PathSeg),
      (∀ s ∈ pre, ∃ k, s = PathSeg.key k) →
      setSegs path (pre ++ PathSeg.idx n :: s2 :: rest) (JValue.obj []) v =
        .error (String.toList "Array index in middle of path not supported: " ++ path) := by
  intro pre
  induction pre with
  | nil => intro n s2 rest _; rfl
  | cons s1 pre2 ih =>
    intro n s2 rest hkeys
    obtain ⟨k, hk⟩ := hkeys s1 (by simp)
    subst hk
    have hkeys2 : ∀ s ∈ pre2, ∃ kk, s = PathSeg.key kk := by
      intro s hs
      exact hkeys s (by simp [hs])
    cases pre2 with
    | nil => simp [setSegs, childFor, alGet]
    | cons s1b pre3 =>
      obtain ⟨kb, hkb⟩ := hkeys2 s1b (by simp)
      subst hkb
      have hrec := ih n s2 rest hkeys2
      simp only [List.cons_append] at hrec ⊢
      simp only [setSegs, childFor, alGet, hrec]

/-- C8: counterexample: the claim's own example `repos[0].name` does not
succeed.  `setDotPath` throws `Array index in middle of path not supported`
on the numeric intermediate segment, and so the whole inline-datasource
build for a declaration named `r.repos[0].name` fails. -/
theorem numeric_intermediate_counterexample :
    setDotPath [] (String.toList "repos[0].name") (JValue.str (String.toList "embedoc")) =
      .error (String.toList "Array index in middle of path not supported: repos[0].name") ∧
    buildInlineDatasources trivParsers
      [⟨String.toList "r.repos[0].name", String.toList "text",
        String.toList "embedoc", 1, 3, 7⟩]
      (String.toList "doc.md") {} =
      .error (String.toList "Array index in middle of path not supported: repos[0].name") :=
  ⟨rfl, rfl⟩

/-- C8: (amended) Dot-path assignment creates missing intermediate
containers only at string-key segments: (i) when every non-final parsed
segment is a string key, writing into an empty base succeeds and the written
value reads back at the same path (missing intermediates are created);
(ii) a missing key is created as an empty array exactly when the next
segment is numeric, and as an empty object otherwise; (iii) a numeric
segment in any non-final position (as in the claim's example
`repos[0].name`) makes the build throw
`Array index in middle of path not supported` instead. -/
theorem intermediate_container_creation (path : Str) (v : JValue) :
    ((∀ s ∈ (parseDotPath path).dropLast, ∃ k, s = PathSeg.key k) →
      parseDotPath path ≠ [] →
      ∃ fields, setDotPath [] path v = .ok fields ∧
        resolveDotPath (.obj fields) path = v) ∧
    (∀ (f : List (Str × JValue)) (k : Str) (s2 : PathSeg) (rest : List PathSeg),
      alGet f k = none →
      childFor f k (s2 :: rest) =
        match s2 with
        | .idx _ => JValue.arr []
        | _ => JValue.obj []) ∧
    (∀ (pre : List PathSeg) (n : Nat) (s2 : PathSeg) (rest : List PathSeg),
      parseDotPath path = pre ++ PathSeg.idx n :: s2 :: rest →
      (∀ s ∈ pre, ∃ k, s = PathSeg.key k) →
      setDotPath [] path v =
        .error (String.toList "Array index in middle of path not supported: " ++ path)) := by
  refine ⟨?_, ?_, ?_⟩
  · intro hkeys hne
    obtain ⟨out, hout⟩ := setSegs_fresh_ok path v (parseDotPath path) hne hkeys
    obtain ⟨w, hw⟩ := setSegs_obj_out path (parseDotPath path) [] v out hne hout
    subst hw
    refine ⟨w, ?_, ?_⟩
    · unfold setDotPath
      rw [if_neg hne, hout]
    · rw [resolveDotPath_eq_fold]
      exact setSegs_resolve path (parseDotPath path) (.obj []) v (.obj w) hne hout
  · intro f k s2 rest hnone
    unfold childFor
    rw [hnone]
    cases s2 <;> rfl
  · intro pre n s2 rest hsegs hkeys
    have hne : parseDotPath path ≠ [] := by rw [hsegs]; simp
    unfold setDotPath
    rw [if_neg hne, hsegs, setSegs_idx_middle path v pre n s2 rest hkeys]

theorem intermediate_container_creation_witness :
    ∃ fields,
      setDotPath [] (String.toList "repos.name") (JValue.str (String.toList "x")) =
        .ok fields ∧
      resolveDotPath (.obj fields) (String.toList "repos.name") =
        JValue.str (String.toList "x") :=
  (intermediate_container_creation (String.toList "repos.name")
      (JValue.str (String.toList "x"))).1
    (by
      intro s hs
      have hdl : (parseDotPath (String.toList "repos.name")).dropLast =
          [PathSeg.key (String.toList "repos")] := by decide
      rw [hdl] at hs
      simp at hs
      exact ⟨_, hs⟩)
    (by decide)

/-- C10: A document that declares the dotted path `project.a` with a
scalar (text) value and later declares the deeper path `project.a.b` makes
the inline-datasource build throw (property assignment through a non-object
value) instead of applying last-declaration-wins; `processFile` captures the
exception as that document's failure (`success = false`, zero markers, no
write); and a batch beginning with this document still processes the
remaining files exactly as it would without it, with one extra failure
counted. -/
theorem scalar_then_deeper_build_failure :
    buildInlineDatasources trivParsers (parseInlineDataMarkers c10doc htmlCS)
        (String.toList "/bad.md") {} =
      .error (String.toList "TypeError: cannot create property on primitive") ∧
    (processFile trivParsers (String.toList "/bad.md") c10doc htmlTC [] [] {}).result =
      c10badResult ∧
    (processFile trivParsers (String.toList "/bad.md") c10doc htmlTC [] [] {}).events = [] ∧
    (∀ (files : List (Str × Str × TargetConfig)),
      (buildFiles trivParsers ((String.toList "/bad.md", c10doc, htmlTC) :: files)
          [] [] {}).results =
        c10badResult :: (buildFiles trivParsers files [] [] {}).results ∧
      (buildFiles trivParsers ((String.toList "/bad.md", c10doc, htmlTC) :: files)
          [] [] {}).failedFiles =
        (buildFiles trivParsers files [] [] {}).failedFiles + 1 ∧
      (buildFiles trivParsers ((String.toList "/bad.md", c10doc, htmlTC) :: files)
          [] [] {}).successFiles =
        (buildFiles trivParsers files [] [] {}).successFiles) := by
  refine ⟨rfl, rfl, rfl, fun files => ⟨rfl, rfl, rfl⟩⟩

/-- C7: Variable resolution is total and inline-first: substitution
produces a value for every attribute (never an error); when the dot-split
root segment names an inline datasource, the frontmatter is irrelevant to
the replacement (inline is consulted first); only when no inline datasource
matches is the full path resolved against frontmatter; and the frontmatter
walk yields the empty string at every failure: a nullish value, a missing
key at any step, or traversal into a non-object value. -/
theorem variable_resolution_total
    (params : List (Str × Str)) (fm : List (Str × JValue))
    (inline : List (Str × InlineDS)) :
    ((resolveVariablesWithInline params fm inline).map Prod.fst =
      params.map Prod.fst) ∧
    (∀ (path root : Str) (ds : InlineDS) (fm2 : List (Str × JValue)),
      (splitChar '.' path).head? = some root →
      alGet inline root = some ds →
      varReplacer fm inline path = varReplacer fm2 inline path) ∧
    (∀ (path root : Str) (restParts : List Str),
      splitChar '.' path = root :: restParts → root ≠ [] →
      alGet inline root = none →
      varReplacer fm inline path = fmWalkLoop (root :: restParts) (JValue.obj fm)) ∧
    (∀ (parts : List Str) (cur : JValue),
      cur.isNullish = true → fmWalkLoop parts cur = []) ∧
    (∀ (part : Str) (rest : List Str) (f : List (Str × JValue)),
      alGet f part = none → fmWalkLoop (part :: rest) (JValue.obj f) = []) ∧
    (∀ (part : Str) (rest : List Str) (cur : JValue),
      cur.isObjectType = false → fmWalkLoop (part :: rest) cur = []) := by
  have hnull : ∀ (parts : List Str) (cur : JValue),
      cur.isNullish = true → fmWalkLoop parts cur = [] := by
    intro parts cur h
    cases parts with
    | nil => simp [fmWalkLoop, h]
    | cons p rest => simp [fmWalkLoop, h]
  refine ⟨?_, ?_, ?_, hnull, ?_, ?_⟩
  · simp [resolveVariablesWithInline, List.map_map, Function.comp]
  · intro path root ds fm2 hhead hget
    unfold varReplacer
    cases hsplit : splitChar '.' path with
    | nil => rfl
    | cons r rest =>
      rw [hsplit] at hhead
      have hr : r = root := by simpa using hhead
      subst hr
      dsimp only
      rw [hget]
  · intro path root restParts hsplit hroot hnone
    unfold varReplacer
    rw [hsplit]
    dsimp only
    rw [if_neg hroot]
    rw [hnone]
  · intro part rest f h
    have : fmWalkLoop (part :: rest) (JValue.obj f) =
        fmWalkLoop rest ((alGet f part).getD .undefVal) := by
      simp [fmWalkLoop, JValue.isNullish]
    rw [this, h]
    exact hnull rest .undefVal rfl
  · intro part rest cur h
    cases cur with
    | obj f => simp [JValue.isObjectType] at h
    | arr xs => simp [JValue.isObjectType] at h
    | null => simp [JValue.isObjectType] at h
    | undefVal => exact hnull (part :: rest) .undefVal rfl
    | bool b => simp [fmWalkLoop, JValue.isNullish]
    | num n => simp [fmWalkLoop, JValue.isNullish]
    | str s2 => simp [fmWalkLoop, JValue.isNullish]

theorem variable_resolution_total_witness :
    (resolveVariablesWithInline
        [(String.toList "k", String.toList "${db.x}")] [] []).map Prod.fst =
      [(String.toList "k", String.toList "${db.x}")].map Prod.fst ∧
    fmWalkLoop [String.toList "missing"] (JValue.obj []) = [] :=
  ⟨(variable_resolution_total
      [(String.toList "k", String.toList "${db.x}")] [] []).1,
   (variable_resolution_total [] [] []).2.2.2.2.1
      (String.toList "missing") [] [] rfl⟩

theorem findMatchFrom_least (matcher : Str → Option Nat) :
    ∀ (s : Str) (i len : Nat), findMatchFrom matcher s = some (i, len) →
      matcher (s.drop i) = some len ∧ ∀ j, j < i → matcher (s.drop j) = none := by
  intro s
  induction s with
  | nil => intro i len h; simp [findMatchFrom] at h
  | cons c rest ih =>
    intro i len h
    simp only [findMatchFrom] at h
    cases hm : matcher (c :: rest) with
    | some l =>
      rw [hm] at h
      cases h
      exact ⟨by simpa using hm, fun j hj => absurd hj (Nat.not_lt_zero j)⟩
    | none =>
      rw [hm] at h
      cases hrec : findMatchFrom matcher rest with
      | none => rw [hrec] at h; simp at h
      | some p =>
        rw [hrec] at h
        obtain ⟨pi, plen⟩ := p
        simp at h
        obtain ⟨hi, hlen⟩ := h
        subst hlen
        subst hi
        obtain ⟨h1, h2⟩ := ih pi plen hrec
        constructor
        · simpa using h1
        · intro j hj
          cases j with
          | zero => simpa using hm
          | succ j2 =>
            have hj2 : j2 < pi := Nat.lt_of_succ_lt_succ hj
            simpa using h2 j2 hj2

/-- C6: (i) When every start-marker match in a document has no following
end-marker match, `parseMarkers` returns no marker records (and no error);
(ii) on a document with no parsed markers and no data markers, `processFile`
takes the no-op fast path: success with zero markers updated, not changed,
no events and no computed output; (iii) `findMatchFrom` — the search
`parseMarkers` runs on the text after each start match — yields the
*nearest* match: it matches at the returned offset and at no earlier offset;
(iv) every parsed marker arises from a start match paired via that search,
over only the text after the start match. -/
theorem unterminated_marker_dropped
    (P : ExtParsers) (filePath content body : Str) (cs : CommentStyle)
    (tc : TargetConfig) (embeds : List (Str × EmbedDefinition))
    (dss : List (Str × DsHandle)) (config : EmbedifyConfig) :
    ((∀ s ∈ scanMatchesAux (matchStartAt cs) body 0 0,
        findMatchFrom (matchEndAt cs) (body.drop (s.1 + s.2.1)) = none) →
      parseMarkers body cs = []) ∧
    (∀ (pf : ParsedFm),
      getCommentStyle tc.comment_style config.comment_styles = .ok cs →
      parseFrontmatter P content = .ok pf →
      parseInlineDataMarkers pf.content cs = [] →
      parseMarkers pf.content cs = [] →
      processFile P filePath content tc embeds dss config false =
        ⟨⟨filePath, true, 0, false, none⟩, [], none⟩) ∧
    (∀ (p eIdx eLen : Nat),
      findMatchFrom (matchEndAt cs) (body.drop p) = some (eIdx, eLen) →
      matchEndAt cs ((body.drop p).drop eIdx) = some eLen ∧
      ∀ j, j < eIdx → matchEndAt cs ((body.drop p).drop j) = none) ∧
    (∀ m ∈ parseMarkers body cs, ∃ i len name attr eIdx eLen,
      (i, len, name, attr) ∈ scanMatchesAux (matchStartAt cs) body 0 0 ∧
      findMatchFrom (matchEndAt cs) (body.drop (i + len)) = some (eIdx, eLen) ∧
      m.startIndex = i ∧ m.endIndex = i + len + eIdx + eLen ∧
      m.existingContent = (body.drop (i + len)).take eIdx) := by
  refine ⟨?_, ?_, ?_, ?_⟩
  · intro hall
    unfold parseMarkers
    rw [List.filterMap_eq_nil_iff]
    intro a ha
    obtain ⟨i, len, name, attr⟩ := a
    have := hall (i, len, name, attr) ha
    dsimp only
    rw [this]
  · intro pf hcs hpf hdm hm
    unfold processFile processFileCore docDataMarkers
    rw [hcs, hpf]
    dsimp only
    rw [hdm, hm]
    simp only [List.map_nil, buildInline_nil, mergeDS_nil]
    simp
  · intro p eIdx eLen h
    exact findMatchFrom_least (matchEndAt cs) (body.drop p) eIdx eLen h
  · intro m hm
    unfold parseMarkers at hm
    rw [List.mem_filterMap] at hm
    obtain ⟨a, ha, hfa⟩ := hm
    obtain ⟨i, len, name, attr⟩ := a
    dsimp only at hfa
    cases hfind : findMatchFrom (matchEndAt cs) (body.drop (i + len)) with
    | none => rw [hfind] at hfa; cases hfa
    | some q =>
      obtain ⟨eIdx, eLen⟩ := q
      rw [hfind] at hfa
      cases hfa
      exact ⟨i, len, name, attr, eIdx, eLen, ha, hfind, rfl, rfl, rfl⟩

theorem unterminated_marker_dropped_witness :
    parseMarkers c6doc htmlCS = [] :=
  (unterminated_marker_dropped trivParsers [] [] c6doc htmlCS htmlTC [] [] {}).1
    (by decide)

/-- C9: counterexample: the input document starts with the frontmatter
block `---\n\nkey: v\n\n---\n`, but the processed text does not start with
those bytes — the block is re-prepended in normalized form, not verbatim. -/
theorem frontmatter_verbatim_counterexample :
    (processFile c9P (String.toList "/d.md") c9doc htmlTC [] [] {}).final =
      some c9final ∧
    leadsWith (String.toList "---\n\nkey: v\n\n---\n") c9doc = true ∧
    leadsWith (String.toList "---\n\nkey: v\n\n---\n") c9final = false :=
  ⟨rfl, rfl, rfl⟩

/-- C9: (amended) Whenever a final text is computed (the non-fast path),
it is `pf.raw ++` the marker-processed body: the *normalized* frontmatter
block is re-prepended — `pf.raw` is empty or of the shape
`---\n{trimmed matter}\n---\n`, so the re-prepend is verbatim exactly when
the input block is already in that normal form — and the document is
reported changed if and only if the final text differs byte-for-byte from
the original content. -/
theorem frontmatter_reprepend_normalized
    (P : ExtParsers) (filePath content : Str) (tc : TargetConfig)
    (embeds : List (Str × EmbedDefinition)) (dss : List (Str × DsHandle))
    (config : EmbedifyConfig) (cs : CommentStyle) (pf : ParsedFm)
    (inline : List (Str × InlineDS)) (merged : List (Str × DsHandle))
    (log : List ProcEvent)
    (hcs : getCommentStyle tc.comment_style config.comment_styles = .ok cs)
    (hpf : parseFrontmatter P content = .ok pf)
    (hbuild : buildInlineDatasources P (docDataMarkers pf cs) filePath
      (config.inline_datasource.getD {}) = .ok inline)
    (hmerge : mergeDS (config.inline_datasource.getD {}).mergedConflictPolicy
      inline dss [] = (log, .ok merged))
    (hnotfast : ¬(parseMarkers pf.content cs = [] ∧
      parseInlineDataMarkers pf.content cs = [])) :
    (processFile P filePath content tc embeds dss config false).final =
      some (pf.raw ++
        (runMarkers filePath pf.data inline merged embeds
          (sortMarkersDesc (parseMarkers pf.content cs)) pf.content 0 log).1) ∧
    (processFile P filePath content tc embeds dss config false).result.changed =
      decide (pf.raw ++
        (runMarkers filePath pf.data inline merged embeds
          (sortMarkersDesc (parseMarkers pf.content cs)) pf.content 0 log).1 ≠
        content) ∧
    (pf.raw = [] ∨ ∃ m, pf.raw =
      String.toList "---\n" ++ trimStr m ++ String.toList "\n---\n") := by
  refine ⟨?_, ?_, ?_⟩ <;>
    first
    | (unfold processFile processFileCore
       rw [hcs, hpf]
       dsimp only
       rw [hbuild]
       dsimp only
       rw [hmerge]
       dsimp only
       rw [if_neg hnotfast])
    | skip
  case refine_3 =>
    unfold parseFrontmatter at hpf
    cases hgm : grayMatter P content with
    | error e => rw [hgm] at hpf; exact Except.noConfusion hpf
    | ok pm =>
      rw [hgm] at hpf
      dsimp only at hpf
      cases hpf
      dsimp only
      by_cases hc : (!pm.data.isEmpty && !pm.matterStr.isEmpty) = true
      · rw [if_pos hc]
        exact Or.inr ⟨pm.matterStr, rfl⟩
      · rw [if_neg hc]
        exact Or.inl rfl

theorem frontmatter_reprepend_normalized_witness :
    (processFile c9P (String.toList "/d.md") c9doc htmlTC [] [] {}).final =
      some (c9pf.raw ++
        (runMarkers (String.toList "/d.md") c9pf.data [] [] []
          (sortMarkersDesc (parseMarkers c9pf.content htmlCS)) c9pf.content 0 []).1) ∧
    (processFile c9P (String.toList "/d.md") c9doc htmlTC [] [] {}).result.changed =
      decide (c9pf.raw ++
        (runMarkers (String.toList "/d.md") c9pf.data [] [] []
          (sortMarkersDesc (parseMarkers c9pf.content htmlCS)) c9pf.content 0 []).1 ≠
        c9doc) ∧
    (c9pf.raw = [] ∨ ∃ m, c9pf.raw =
      String.toList "---\n" ++ trimStr m ++ String.toList "\n---\n") :=
  frontmatter_reprepend_normalized c9P (String.toList "/d.md") c9doc htmlTC [] []
    {} htmlCS c9pf [] [] [] rfl rfl rfl rfl (by decide)

theorem setAdd_mem (l : List Str) (x a : Str) (h : a ∈ l) : a ∈ setAdd l x := by
  unfold setAdd
  split
  · exact h
  · exact List.mem_append_left _ h

theorem setAdd_self (l : List Str) (x : Str) : x ∈ setAdd l x := by
  unfold setAdd
  split
  · exact List.elem_iff.mp (by assumption)
  · exact List.mem_append_right _ (List.mem_singleton.mpr rfl)

theorem bfsLoop_affected_mono (nodes : DepNodes) :
    ∀ (queue : List DepNode) (visited affected : List Str),
      ∀ a ∈ affected, a ∈ bfsLoop nodes queue visited affected := by
  intro queue visited affected
  induction queue, visited, affected using bfsLoop.induct nodes with
  | case1 visited affected =>
    intro a ha
    rw [bfsLoop]
    exact ha
  | case2 visited affected current rest hvis ih =>
    intro a ha
    rw [bfsLoop]
    rw [if_pos hvis]
    exact ih a ha
  | case3 visited affected current rest hvis hhas visited' affected' pushes ih =>
    intro a ha
    have haff : a ∈ affected' := by
      show a ∈ (if current.type = DepType.document then setAdd affected current.path
        else affected)
      split
      · exact setAdd_mem _ _ _ ha
      · exact ha
    rw [bfsLoop]
    rw [if_neg hvis, dif_pos hhas]
    exact ih a haff
  | case4 visited affected current rest hvis hhas ih =>
    intro a ha
    rw [bfsLoop]
    rw [if_neg hvis, dif_neg hhas]
    exact ih a ha

theorem PathOK_head_has (nodes : DepNodes) (a : Str) (ys : List Str)
    (h : PathOK nodes (a :: ys)) : alHas nodes a = true := by
  cases ys with
  | nil => exact h
  | cons b rest =>
    obtain ⟨⟨n, hn, _⟩, _⟩ := h
    simp [alHas, hn]

theorem mem_split_last {a : Str} :
    ∀ {l : List Str}, a ∈ l → ∃ p s, l = p ++ a :: s ∧ a ∉ s := by
  intro l
  induction l with
  | nil => intro h; cases h
  | cons x xs ih =>
    intro h
    by_cases hx : a ∈ xs
    · obtain ⟨p, s, hps, hns⟩ := ih hx
      exact ⟨x :: p, s, by rw [hps]; rfl, hns⟩
    · have hax : a = x := by
        cases h with
        | head => rfl
        | tail _ h2 => exact absurd h2 hx
      exact ⟨[], xs, by rw [hax]; simp, hx⟩

theorem PathOK_suffix (nodes : DepNodes) :
    ∀ (p ys : List Str), PathOK nodes (p ++ ys) → ys ≠ [] → PathOK nodes ys := by
  intro p
  induction p with
  | nil => intro ys h _; exact h
  | cons x xs ih =>
    intro ys h hne
    apply ih ys ?_ hne
    cases hxs : xs ++ ys with
    | nil =>
      exact absurd (List.append_eq_nil.mp hxs).2 hne
    | cons b rest =>
      rw [List.cons_append, hxs] at h
      exact hxs ▸ h.2

theorem alGet_mem {α : Type} (l : List (Str × α)) (k : Str) (v : α)
    (h : alGet l k = some v) : (k, v) ∈ l := by
  induction l with
  | nil => simp [alGet] at h
  | cons kv rest ih =>
    obtain ⟨k1, v1⟩ := kv
    simp only [alGet] at h
    by_cases hk : k1 = k
    · rw [if_pos hk] at h
      injection h with h2
      subst hk
      subst h2
      exact List.mem_cons_self _ _
    · rw [if_neg hk] at h
      exact List.mem_cons_of_mem _ (ih h)

theorem bfsLoop_complete (nodes : DepNodes)
    (hwk : ∀ kn ∈ nodes, (kn : Str × DepNode).2.path = kn.1) :
    ∀ (queue : List DepNode) (visited affected : List Str),
      ∀ (q0 : DepNode) (xs : List Str) (t : Str) (nt : DepNode),
        (∀ n ∈ queue, alGet nodes n.path = some n) →
        q0 ∈ queue →
        PathOK nodes (q0.path :: xs) →
        (q0.path :: xs).getLast? = some t →
        (∀ x ∈ q0.path :: xs, ¬ visited.contains x = true) →
        alGet nodes t = some nt →
        nt.type = .document →
        t ∈ bfsLoop nodes queue visited affected := by
  intro queue visited affected
  induction queue, visited, affected using bfsLoop.induct nodes with
  | case1 visited affected =>
    intro q0 xs t nt hq hq0 hpath hlast havoid ht htty
    cases hq0
  | case2 visited affected current rest hvis ih =>
    intro q0 xs t nt hq hq0 hpath hlast havoid ht htty
    rw [bfsLoop, if_pos hvis]
    cases hq0 with
    | head =>
      exact absurd hvis (havoid current.path (List.mem_cons_self _ _))
    | tail _ hmem =>
      exact ih q0 xs t nt (fun n hn => hq n (List.mem_cons_of_mem _ hn)) hmem
        hpath hlast havoid ht htty
  | case4 visited affected current rest hvis hhas ih =>
    intro q0 xs t nt hq hq0 hpath hlast havoid ht htty
    rw [bfsLoop, if_neg hvis, dif_neg hhas]
    cases hq0 with
    | head =>
      exact absurd (PathOK_head_has nodes _ xs hpath) hhas
    | tail _ hmem =>
      exact ih q0 xs t nt (fun n hn => hq n (List.mem_cons_of_mem _ hn)) hmem
        hpath hlast havoid ht htty
  | case3 visited affected current rest hvis hhas visited' affected' pushes ih =>
    intro q0 xs t nt hq hq0 hpath hlast havoid ht htty
    rw [bfsLoop, if_neg hvis, dif_pos hhas]
    have hcur : alGet nodes current.path = some current :=
      hq current (List.mem_cons_self _ _)
    have hpush_mem : ∀ (c1 : Str) (n1 : DepNode), c1 ∈ current.dependedBy →
        alGet nodes c1 = some n1 → ¬ visited'.contains c1 = true → n1 ∈ pushes := by
      intro c1 n1 hc hg hnv
      show n1 ∈ current.dependedBy.filterMap _
      refine List.mem_filterMap.mpr ⟨c1, hc, ?_⟩
      rw [hg]
      dsimp only
      rw [dif_neg hnv]
    have hq' : ∀ n ∈ rest ++ pushes, alGet nodes n.path = some n := by
      intro m hm
      rcases List.mem_append.mp hm with h | h
      · exact hq m (List.mem_cons_of_mem _ h)
      · obtain ⟨q, hqdep, hsome⟩ := List.mem_filterMap.mp h
        cases halg : alGet nodes q with
        | none => rw [halg] at hsome; simp at hsome
        | some mm =>
          rw [halg] at hsome
          dsimp only at hsome
          by_cases hv : visited'.contains q = true
          · rw [dif_pos hv] at hsome; cases hsome
          · rw [dif_neg hv] at hsome
            injection hsome with hmm
            subst hmm
            have hp : mm.path = q := hwk (q, mm) (alGet_mem nodes q mm halg)
            rw [hp]
            exact halg
    by_cases hcp : current.path ∈ q0.path :: xs
    · obtain ⟨p, s, hsplit, hns⟩ := mem_split_last hcp
      cases s with
      | nil =>
        have hteq : t = current.path := by
          rw [hsplit, List.getLast?_append_cons] at hlast
          simp at hlast
          exact hlast.symm
        have hntcur : nt = current := by
          rw [hteq, hcur] at ht
          injection ht with h
          exact h.symm
        have hdoc : current.type = DepType.document := by
          rw [← hntcur]; exact htty
        apply bfsLoop_affected_mono
        show t ∈ (if current.type = DepType.document then
          setAdd affected current.path else affected)
        rw [if_pos hdoc, hteq]
        exact setAdd_self _ _
      | cons c1 ys =>
        have hsuf : PathOK nodes (current.path :: c1 :: ys) :=
          PathOK_suffix nodes p (current.path :: c1 :: ys)
            (by rw [← hsplit]; exact hpath) (by simp)
        obtain ⟨⟨n, hn, hc1dep⟩, hrest⟩ := hsuf
        have hncur : n = current := by
          rw [hcur] at hn
          injection hn with h
          exact h.symm
        have hc1has : alHas nodes c1 = true := PathOK_head_has nodes c1 ys hrest
        obtain ⟨n1, hn1⟩ : ∃ n1, alGet nodes c1 = some n1 := by
          cases halg : alGet nodes c1 with
          | none => rw [alHas, halg] at hc1has; simp at hc1has
          | some m => exact ⟨m, rfl⟩
        have hn1path : n1.path = c1 := hwk (c1, n1) (alGet_mem nodes c1 n1 hn1)
        have hmemsuf : ∀ x ∈ c1 :: ys, x ∈ q0.path :: xs := by
          intro x hx
          rw [hsplit]
          exact List.mem_append_right _ (List.mem_cons_of_mem _ hx)
        have havoid' : ∀ x ∈ n1.path :: ys, ¬ visited'.contains x = true := by
          intro x hx
          rw [hn1path] at hx
          have h1 : ¬ visited.contains x = true := havoid x (hmemsuf x hx)
          have h2 : x ≠ current.path := by
            intro he
            exact hns (he ▸ hx)
          show ¬ (current.path :: visited).contains x = true
          rw [List.contains_cons]
          simp only [Bool.or_eq_true, beq_iff_eq]
          rintro (hc | hc)
          · exact h2 hc
          · exact h1 hc
        have hlast' : (n1.path :: ys).getLast? = some t := by
          rw [hn1path]
          rw [hsplit, List.getLast?_append_cons, List.getLast?_cons_cons] at hlast
          exact hlast
        have hpath' : PathOK nodes (n1.path :: ys) := by
          rw [hn1path]; exact hrest
        have hnvc1 : ¬ visited'.contains c1 = true := by
          have := havoid' n1.path (List.mem_cons_self _ _)
          rw [hn1path] at this
          exact this
        have hn1push : n1 ∈ pushes :=
          hpush_mem c1 n1 (hncur ▸ hc1dep) hn1 hnvc1
        exact ih n1 ys t nt hq' (List.mem_append_right _ hn1push)
          hpath' hlast' havoid' ht htty
    · have hq0r : q0 ∈ rest := by
        cases hq0 with
        | head => exact absurd (List.mem_cons_self _ _) hcp
        | tail _ h => exact h
      have havoid' : ∀ x ∈ q0.path :: xs, ¬ visited'.contains x = true := by
        intro x hx
        have h1 := havoid x hx
        have h2 : x ≠ current.path := fun he => hcp (he ▸ hx)
        show ¬ (current.path :: visited).contains x = true
        rw [List.contains_cons]
        simp only [Bool.or_eq_true, beq_iff_eq]
        rintro (hc | hc)
        · exact h2 hc
        · exact h1 hc
      exact ih q0 xs t nt hq' (List.mem_append_left _ hq0r)
        hpath hlast havoid' ht htty

/-- Generic fold invariant. -/
theorem foldl_preserve {α β : Type} (Q : α → Prop) (f : α → β → α) :
    ∀ (l : List β) (init : α), Q init → (∀ s b, Q s → Q (f s b)) →
      Q (l.foldl f init) := by
  intro l
  induction l with
  | nil => intro init h _; exact h
  | cons b bs ih => intro init h hstep; exact ih (f init b) (hstep init b h) hstep

theorem Pres.refl2 (nodes : DepNodes) : Pres nodes nodes :=
  fun _ n h => ⟨n, h, rfl, fun _ hx => hx⟩

theorem Pres.trans2 {a b c : DepNodes} (h1 : Pres a b) (h2 : Pres b c) : Pres a c := by
  intro k n hn
  obtain ⟨n2, hn2, hty, hdep⟩ := h1 k n hn
  obtain ⟨n3, hn3, hty2, hdep2⟩ := h2 k n2 hn2
  exact ⟨n3, hn3, hty.trans hty2, fun x hx => hdep2 x (hdep x hx)⟩

theorem alGet_updateNode (nodes : DepNodes) (k : Str) (f : DepNode → DepNode) :
    ∀ k2, alGet (updateNode nodes k f) k2 =
      (alGet nodes k2).map (fun n => if k2 = k then f n else n) := by
  intro k2
  induction nodes with
  | nil => simp [updateNode, alGet]
  | cons kv rest ih =>
    obtain ⟨k1, n1⟩ := kv
    simp only [updateNode, List.map_cons] at ih ⊢
    by_cases hk : k1 = k
    · rw [if_pos hk]
      simp only [alGet]
      by_cases h1 : k1 = k2
      · rw [if_pos h1, if_pos h1]
        have hq : k2 = k := h1.symm.trans hk
        simp [hq]
      · rw [if_neg h1, if_neg h1]
        exact ih
    · rw [if_neg hk]
      simp only [alGet]
      by_cases h1 : k1 = k2
      · have hne : ¬ k2 = k := fun he => hk (h1.trans he)
        rw [if_pos h1, if_pos h1]
        simp [hne]
      · rw [if_neg h1, if_neg h1]
        exact ih

theorem Pres_updateNode (nodes : DepNodes) (k : Str) (f : DepNode → DepNode)
    (hf : ∀ n, (f n).type = n.type ∧ ∀ x ∈ n.dependedBy, x ∈ (f n).dependedBy) :
    Pres nodes (updateNode nodes k f) := by
  intro k2 n hn
  rw [alGet_updateNode, hn]
  by_cases h : k2 = k
  · exact ⟨_, by simp [h], ((hf n).1).symm, (hf n).2⟩
  · exact ⟨n, by simp [h], rfl, fun x hx => hx⟩

theorem Pres_addEdge (nodes : DepNodes) (fromK toK : Str) :
    Pres nodes (addEdge nodes fromK toK) := by
  unfold addEdge
  exact Pres.trans2
    (Pres_updateNode nodes fromK
      (fun n => { n with dependsOn := setAdd n.dependsOn toK })
      (fun n => ⟨rfl, fun x hx => hx⟩))
    (Pres_updateNode
      (updateNode nodes fromK
        (fun n => { n with dependsOn := setAdd n.dependsOn toK }))
      toK
      (fun n => { n with dependedBy := setAdd n.dependedBy fromK })
      (fun n => ⟨rfl, fun x hx => setAdd_mem _ _ _ hx⟩))

theorem Pres_alPut_fresh (nodes : DepNodes) (k : Str) (v : DepNode)
    (h : alGet nodes k = none) : Pres nodes (alPut nodes k v) := by
  intro k2 n hn
  have hne : k ≠ k2 := by
    intro he
    rw [he, hn] at h
    cases h
  rw [alGet_alPut_ne nodes k k2 v hne]
  exact ⟨n, hn, rfl, fun x hx => hx⟩

theorem Pres_getOrCreateNode (resolveP : Str → Str) (nodes : DepNodes)
    (ty : DepType) (p : Str) :
    Pres nodes (getOrCreateNode resolveP nodes ty p).1 := by
  unfold getOrCreateNode
  dsimp only
  cases h : alGet nodes (resolveP p) with
  | some n => exact Pres.refl2 nodes
  | none => exact Pres_alPut_fresh nodes (resolveP p) _ h

theorem getOrCreateNode_key (resolveP : Str → Str) (nodes : DepNodes)
    (ty : DepType) (p : Str) :
    (getOrCreateNode resolveP nodes ty p).2 = resolveP p := by
  unfold getOrCreateNode
  dsimp only
  cases alGet nodes (resolveP p) <;> rfl

theorem getOrCreateNode_has (resolveP : Str → Str) (nodes : DepNodes)
    (ty : DepType) (p : Str) :
    ∃ n, alGet (getOrCreateNode resolveP nodes ty p).1 (resolveP p) = some n := by
  unfold getOrCreateNode
  dsimp only
  cases h : alGet nodes (resolveP p) with
  | some n => exact ⟨n, h⟩
  | none => exact ⟨_, alGet_alPut_self nodes (resolveP p) _⟩

/-- After `addEdge`, the target node records the incoming edge. -/
theorem addEdge_in (nodes : DepNodes) (fromK toK : Str) (n : DepNode)
    (h : alGet nodes toK = some n) :
    ∃ n2, alGet (addEdge nodes fromK toK) toK = some n2 ∧
      fromK ∈ n2.dependedBy := by
  unfold addEdge
  rw [alGet_updateNode, alGet_updateNode, h]
  simp only [Option.map_some]
  refine ⟨_, rfl, ?_⟩
  dsimp only
  split
  · dsimp only
    exact setAdd_self _ _
  · rename_i hcon
    exact absurd trivial hcon

theorem Pres_dsStep (resolveP : Str → Str) (config : EmbedifyConfig)
    (embedK : Str) (ms : DepNodes) (dsName : Str) :
    Pres ms (dsStep resolveP config embedK ms dsName) := by
  unfold dsStep
  cases alGet (config.datasources.getD []) dsName with
  | none => exact Pres.refl2 ms
  | some dsCfg =>
    dsimp only
    cases dsCfg.path with
    | none => exact Pres.refl2 ms
    | some p =>
      exact Pres.trans2 (Pres_getOrCreateNode resolveP ms .datasource p)
        (Pres_addEdge _ _ _)

theorem Pres_embedStep (resolveP : Str → Str)
    (config : EmbedifyConfig) (embeds : List (Str × EmbedDefinition))
    (docK : Str) (ns : DepNodes) (name : Str) :
    Pres ns (embedStep resolveP config embeds docK ns name) := by
  unfold embedStep
  cases alGet embeds name with
  | none => exact Pres.refl2 ns
  | some embed =>
    dsimp only
    refine Pres.trans2
      (Pres.trans2 (Pres_getOrCreateNode resolveP ns .embed
          (String.toList "embed:" ++ name))
        (Pres_addEdge _ docK
          (getOrCreateNode resolveP ns .embed (String.toList "embed:" ++ name)).2))
      ?_
    exact foldl_preserve (fun s => Pres _ s) _ embed.dependsOn _
      (Pres.refl2 _)
      (fun s b hs => Pres.trans2 hs (Pres_dsStep resolveP config _ s b))

theorem analyzeDocument_eq (P : ExtParsers) (resolveP : Str → Str)
    (config : EmbedifyConfig) (embeds : List (Str × EmbedDefinition))
    (nodes : DepNodes) (filePath content : Str) (tc : TargetConfig)
    (cs : CommentStyle) (pf : ParsedFm)
    (hcs : getCommentStyle tc.comment_style config.comment_styles = .ok cs)
    (hpf : parseFrontmatter P content = .ok pf) :
    analyzeDocument P resolveP config embeds nodes filePath content tc =
      (dedupStrs ((parseMarkers pf.content cs).map (·.templateName))).foldl
        (embedStep resolveP config embeds
          (getOrCreateNode resolveP nodes .document filePath).2)
        (getOrCreateNode resolveP nodes .document filePath).1 := by
  unfold analyzeDocument
  rw [hcs, hpf]
  rfl

theorem Pres_analyzeDocument (P : ExtParsers) (resolveP : Str → Str)
    (config : EmbedifyConfig) (embeds : List (Str × EmbedDefinition))
    (nodes : DepNodes) (filePath content : Str) (tc : TargetConfig) :
    Pres nodes (analyzeDocument P resolveP config embeds nodes filePath content tc) := by
  cases hcs : getCommentStyle tc.comment_style config.comment_styles with
  | error e =>
    unfold analyzeDocument
    rw [hcs]
    exact Pres_getOrCreateNode resolveP nodes .document filePath
  | ok cs =>
    cases hpf : parseFrontmatter P content with
    | error e =>
      unfold analyzeDocument
      rw [hcs, hpf]
      exact Pres_getOrCreateNode resolveP nodes .document filePath
    | ok pf =>
      rw [analyzeDocument_eq P resolveP config embeds nodes filePath content tc cs pf
        hcs hpf]
      refine Pres.trans2 (Pres_getOrCreateNode resolveP nodes .document filePath) ?_
      exact foldl_preserve (fun s => Pres _ s) _ _ _
        (Pres.refl2 _)
        (fun s b hs => Pres.trans2 hs (Pres_embedStep resolveP config embeds _ s b))

theorem mem_foldl_setAdd (a : Str) :
    ∀ (l acc : List Str), (a ∈ acc ∨ a ∈ l) → a ∈ l.foldl setAdd acc := by
  intro l
  induction l with
  | nil =>
    intro acc h
    rcases h with h | h
    · exact h
    · cases h
  | cons x xs ih =>
    intro acc h
    rw [List.foldl_cons]
    rcases h with h | h
    · exact ih _ (Or.inl (setAdd_mem _ _ _ h))
    · rcases List.mem_cons.mp h with h | h
      · exact ih _ (Or.inl (h ▸ setAdd_self acc x))
      · exact ih _ (Or.inr h)

theorem mem_dedupStrs (a : Str) (l : List Str) (h : a ∈ l) : a ∈ dedupStrs l :=
  mem_foldl_setAdd a l [] (Or.inr h)

theorem WK_updateNode (nodes : DepNodes) (k : Str) (f : DepNode → DepNode)
    (hf : ∀ n, (f n).path = n.path) (h : WK nodes) : WK (updateNode nodes k f) := by
  intro kn hkn
  obtain ⟨kn0, hkn0, heq⟩ := List.mem_map.mp hkn
  by_cases hk : kn0.1 = k
  · rw [if_pos hk] at heq
    rw [← heq]
    dsimp only
    rw [hf kn0.2]
    exact h kn0 hkn0
  · rw [if_neg hk] at heq
    rw [← heq]
    exact h kn0 hkn0

theorem WK_addEdge (nodes : DepNodes) (fromK toK : Str) (h : WK nodes) :
    WK (addEdge nodes fromK toK) := by
  unfold addEdge
  exact WK_updateNode _ toK _ (fun n => rfl)
    (WK_updateNode nodes fromK _ (fun n => rfl) h)

theorem WK_alPut (nodes : DepNodes) (k : Str) (v : DepNode) (hv : v.path = k)
    (h : WK nodes) : WK (alPut nodes k v) := by
  induction nodes with
  | nil =>
    intro kn hkn
    simp only [alPut, List.mem_singleton] at hkn
    rw [hkn]
    exact hv
  | cons kv rest ih =>
    intro kn hkn
    simp only [alPut] at hkn
    by_cases hk : kv.1 = k
    · rw [if_pos hk] at hkn
      rcases List.mem_cons.mp hkn with he | he
      · rw [he]; exact hv
      · exact h kn (List.mem_cons_of_mem _ he)
    · rw [if_neg hk] at hkn
      rcases List.mem_cons.mp hkn with he | he
      · rw [he]; exact h kv (List.mem_cons_self _ _)
      · exact ih (fun m hm => h m (List.mem_cons_of_mem _ hm)) kn he

theorem WK_getOrCreateNode (resolveP : Str → Str) (nodes : DepNodes)
    (ty : DepType) (p : Str) (h : WK nodes) :
    WK (getOrCreateNode resolveP nodes ty p).1 := by
  unfold getOrCreateNode
  dsimp only
  cases alGet nodes (resolveP p) with
  | some n => exact h
  | none => exact WK_alPut nodes (resolveP p) _ rfl h

theorem WK_dsStep (resolveP : Str → Str) (config : EmbedifyConfig)
    (embedK : Str) (ms : DepNodes) (dsName : Str) (h : WK ms) :
    WK (dsStep resolveP config embedK ms dsName) := by
  unfold dsStep
  cases alGet (config.datasources.getD []) dsName with
  | none => exact h
  | some dsCfg =>
    dsimp only
    cases dsCfg.path with
    | none => exact h
    | some p =>
      exact WK_addEdge _ _ _ (WK_getOrCreateNode resolveP ms .datasource p h)

theorem WK_embedStep (resolveP : Str → Str) (config : EmbedifyConfig)
    (embeds : List (Str × EmbedDefinition)) (docK : Str) (ns : DepNodes)
    (name : Str) (h : WK ns) :
    WK (embedStep resolveP config embeds docK ns name) := by
  unfold embedStep
  cases alGet embeds name with
  | none => exact h
  | some embed =>
    dsimp only
    refine foldl_preserve WK _ embed.dependsOn _ ?_ ?_
    · exact WK_addEdge _ _ _
        (WK_getOrCreateNode resolveP ns .embed (String.toList "embed:" ++ name) h)
    · intro s b hs
      exact WK_dsStep resolveP config _ s b hs

theorem WK_analyzeDocument (P : ExtParsers) (resolveP : Str → Str)
    (config : EmbedifyConfig) (embeds : List (Str × EmbedDefinition))
    (nodes : DepNodes) (filePath content : Str) (tc : TargetConfig) (h : WK nodes) :
    WK (analyzeDocument P resolveP config embeds nodes filePath content tc) := by
  have hbase : WK (getOrCreateNode resolveP nodes .document filePath).1 :=
    WK_getOrCreateNode resolveP nodes .document filePath h
  cases hcs : getCommentStyle tc.comment_style config.comment_styles with
  | error e =>
    unfold analyzeDocument
    rw [hcs]
    exact hbase
  | ok cs =>
    cases hpf : parseFrontmatter P content with
    | error e =>
      unfold analyzeDocument
      rw [hcs, hpf]
      exact hbase
    | ok pf =>
      rw [analyzeDocument_eq P resolveP config embeds nodes filePath content tc cs pf
        hcs hpf]
      refine foldl_preserve WK _ _ _ hbase ?_
      intro s b hs
      exact WK_embedStep resolveP config embeds _ s b hs

theorem WK_buildGraph (P : ExtParsers) (resolveP : Str → Str)
    (config : EmbedifyConfig) (embeds : List (Str × EmbedDefinition))
    (docs : List (Str × Str × TargetConfig)) :
    WK (buildGraph P resolveP config embeds docs) := by
  unfold buildGraph
  refine foldl_preserve WK _ docs [] ?_ ?_
  · intro kn hkn
    cases hkn
  · intro s b hs
    exact WK_analyzeDocument P resolveP config embeds s b.1 b.2.1 b.2.2 hs

theorem embedStep_eq (resolveP : Str → Str) (config : EmbedifyConfig)
    (embeds : List (Str × EmbedDefinition)) (docK : Str) (ns : DepNodes)
    (name : Str) (embed : EmbedDefinition)
    (hembed : alGet embeds name = some embed) :
    embedStep resolveP config embeds docK ns name =
      embed.dependsOn.foldl
        (dsStep resolveP config
          (getOrCreateNode resolveP ns .embed (String.toList "embed:" ++ name)).2)
        (addEdge
          (getOrCreateNode resolveP ns .embed (String.toList "embed:" ++ name)).1
          docK
          (getOrCreateNode resolveP ns .embed (String.toList "embed:" ++ name)).2) := by
  unfold embedStep
  rw [hembed]
  exact rfl

theorem dsStep_eq (resolveP : Str → Str) (config : EmbedifyConfig)
    (embedK : Str) (ms : DepNodes) (dsName : Str) (dsCfg : DsConfig) (p : Str)
    (hcfg : alGet (config.datasources.getD []) dsName = some dsCfg)
    (hpath : dsCfg.path = some p) :
    dsStep resolveP config embedK ms dsName =
      addEdge (getOrCreateNode resolveP ms .datasource p).1 embedK
        (getOrCreateNode resolveP ms .datasource p).2 := by
  unfold dsStep
  rw [hcfg]
  dsimp only
  rw [hpath]

theorem buildGraph_scenario
    (P : ExtParsers) (resolveP : Str → Str) (config : EmbedifyConfig)
    (embeds : List (Str × EmbedDefinition))
    (pre post : List (Str × Str × TargetConfig))
    (fp content : Str) (tc : TargetConfig) (cs : CommentStyle) (pf : ParsedFm)
    (ename : Str) (embed : EmbedDefinition) (dsName : Str) (dsCfg : DsConfig)
    (dsPath : Str)
    (hcs : getCommentStyle tc.comment_style config.comment_styles = .ok cs)
    (hpf : parseFrontmatter P content = .ok pf)
    (hmark : ename ∈ (parseMarkers pf.content cs).map (·.templateName))
    (hembed : alGet embeds ename = some embed)
    (hdep : dsName ∈ embed.dependsOn)
    (hdscfg : alGet (config.datasources.getD []) dsName = some dsCfg)
    (hdspath : dsCfg.path = some dsPath)
    (hfresh : alGet (buildGraph P resolveP config embeds pre) (resolveP fp) = none) :
    ∃ (ns ne nd : DepNode),
      alGet (buildGraph P resolveP config embeds (pre ++ (fp, content, tc) :: post))
        (resolveP dsPath) = some ns ∧
      resolveP (String.toList "embed:" ++ ename) ∈ ns.dependedBy ∧
      alGet (buildGraph P resolveP config embeds (pre ++ (fp, content, tc) :: post))
        (resolveP (String.toList "embed:" ++ ename)) = some ne ∧
      resolveP fp ∈ ne.dependedBy ∧
      alGet (buildGraph P resolveP config embeds (pre ++ (fp, content, tc) :: post))
        (resolveP fp) = some nd ∧
      nd.type = DepType.document := by
  obtain ⟨ep, es, hnames⟩ :=
    List.append_of_mem (mem_dedupStrs ename _ hmark)
  obtain ⟨dp1, dp2, hdeps⟩ := List.append_of_mem hdep
  -- the freshly created document node map
  have hg0 : (getOrCreateNode resolveP (buildGraph P resolveP config embeds pre)
      DepType.document fp).1 =
      alPut (buildGraph P resolveP config embeds pre) (resolveP fp)
        ⟨DepType.document, resolveP fp, [], []⟩ := by
    unfold getOrCreateNode
    dsimp only
    rw [hfresh]
  -- the final graph as an explicit chain
  have hGeq : buildGraph P resolveP config embeds (pre ++ (fp, content, tc) :: post) =
      post.foldl
        (fun ns d => analyzeDocument P resolveP config embeds ns d.1 d.2.1 d.2.2)
        (es.foldl (embedStep resolveP config embeds (resolveP fp))
          (dp2.foldl
            (dsStep resolveP config (resolveP (String.toList "embed:" ++ ename)))
            (addEdge
              (getOrCreateNode resolveP
                (dp1.foldl
                  (dsStep resolveP config
                    (resolveP (String.toList "embed:" ++ ename)))
                  (addEdge
                    (getOrCreateNode resolveP
                      (ep.foldl (embedStep resolveP config embeds (resolveP fp))
                        (alPut (buildGraph P resolveP config embeds pre)
                          (resolveP fp)
                          ⟨DepType.document, resolveP fp, [], []⟩))
                      DepType.embed (String.toList "embed:" ++ ename)).1
                    (resolveP fp)
                    (resolveP (String.toList "embed:" ++ ename))))
                DepType.datasource dsPath).1
              (resolveP (String.toList "embed:" ++ ename))
              (resolveP dsPath)))) := by
    unfold buildGraph
    rw [List.foldl_append, List.foldl_cons]
    show List.foldl _ (analyzeDocument P resolveP config embeds
      (buildGraph P resolveP config embeds pre) fp content tc) post = _
    rw [analyzeDocument_eq P resolveP config embeds
      (buildGraph P resolveP config embeds pre) fp content tc cs pf hcs hpf]
    rw [getOrCreateNode_key resolveP (buildGraph P resolveP config embeds pre)
      DepType.document fp]
    rw [hg0]
    rw [hnames, List.foldl_append, List.foldl_cons]
    rw [embedStep_eq resolveP config embeds (resolveP fp) _ ename embed hembed]
    rw [getOrCreateNode_key resolveP _ DepType.embed
      (String.toList "embed:" ++ ename)]
    rw [hdeps, List.foldl_append, List.foldl_cons]
    rw [dsStep_eq resolveP config _ _ dsName dsCfg dsPath hdscfg hdspath]
    rw [getOrCreateNode_key resolveP _ DepType.datasource dsPath]
    rfl
  rw [hGeq]
  -- short names for the intermediate states
  have hPresDs : ∀ (s : DepNodes) (l : List Str),
      Pres s (l.foldl
        (dsStep resolveP config (resolveP (String.toList "embed:" ++ ename))) s) :=
    fun s l => foldl_preserve (fun x => Pres s x) _ l s (Pres.refl2 s)
      (fun x b hx => Pres.trans2 hx (Pres_dsStep resolveP config _ x b))
  have hPresEm : ∀ (s : DepNodes) (l : List Str),
      Pres s (l.foldl (embedStep resolveP config embeds (resolveP fp)) s) :=
    fun s l => foldl_preserve (fun x => Pres s x) _ l s (Pres.refl2 s)
      (fun x b hx => Pres.trans2 hx (Pres_embedStep resolveP config embeds _ x b))
  have hPresAD : ∀ (s : DepNodes),
      Pres s (post.foldl
        (fun ns d => analyzeDocument P resolveP config embeds ns d.1 d.2.1 d.2.2) s) :=
    fun s => foldl_preserve (fun x => Pres s x) _ post s (Pres.refl2 s)
      (fun x b hx => Pres.trans2 hx
        (Pres_analyzeDocument P resolveP config embeds x b.1 b.2.1 b.2.2))
  -- the document node exists at the base of the chain
  have hdoc0 : alGet
      (alPut (buildGraph P resolveP config embeds pre) (resolveP fp)
        ⟨DepType.document, resolveP fp, [], []⟩) (resolveP fp) =
      some ⟨DepType.document, resolveP fp, [], []⟩ :=
    alGet_alPut_self _ _ _
  -- embed node and document→embed edge after the first addEdge
  obtain ⟨ne0, hne0⟩ := getOrCreateNode_has resolveP
    (ep.foldl (embedStep resolveP config embeds (resolveP fp))
      (alPut (buildGraph P resolveP config embeds pre) (resolveP fp)
        ⟨DepType.document, resolveP fp, [], []⟩))
    DepType.embed (String.toList "embed:" ++ ename)
  obtain ⟨ne1, hne1, hne1dep⟩ := addEdge_in _ (resolveP fp)
    (resolveP (String.toList "embed:" ++ ename)) ne0 hne0
  -- datasource node and embed→datasource edge after the second addEdge
  obtain ⟨ns0, hns0⟩ := getOrCreateNode_has resolveP
    (dp1.foldl
      (dsStep resolveP config (resolveP (String.toList "embed:" ++ ename)))
      (addEdge
        (getOrCreateNode resolveP
          (ep.foldl (embedStep resolveP config embeds (resolveP fp))
            (alPut (buildGraph P resolveP config embeds pre) (resolveP fp)
              ⟨DepType.document, resolveP fp, [], []⟩))
          DepType.embed (String.toList "embed:" ++ ename)).1
        (resolveP fp)
        (resolveP (String.toList "embed:" ++ ename))))
    DepType.datasource dsPath
  obtain ⟨ns1, hns1, hns1dep⟩ := addEdge_in _
    (resolveP (String.toList "embed:" ++ ename)) (resolveP dsPath) ns0 hns0
  -- preservation from each creation point to the final graph
  have hPresAfter : ∀ (s : DepNodes),
      Pres s (dp2.foldl
        (dsStep resolveP config (resolveP (String.toList "embed:" ++ ename))) s) →
      ∀ k n, alGet s k = some n →
      ∃ n2, alGet (post.foldl
          (fun ns d => analyzeDocument P resolveP config embeds ns d.1 d.2.1 d.2.2)
          (es.foldl (embedStep resolveP config embeds (resolveP fp))
            (dp2.foldl
              (dsStep resolveP config (resolveP (String.toList "embed:" ++ ename)))
              s))) k = some n2 ∧
        n.type = n2.type ∧ ∀ x ∈ n.dependedBy, x ∈ n2.dependedBy := by
    intro s hs
    exact Pres.trans2 hs (Pres.trans2 (hPresEm _ es) (hPresAD _))
  -- chain the three facts up
  -- (1) datasource node: created at the very state the goal folds from
  obtain ⟨ns2, hns2, hnsty, hnsdep⟩ := hPresAfter _ (hPresDs _ dp2) _ _ hns1
  -- (2) embed node: carry through dp1 fold, getOrCreate, addEdge first
  have hPresBaseToAft : Pres
      (addEdge
        (getOrCreateNode resolveP
          (ep.foldl (embedStep resolveP config embeds (resolveP fp))
            (alPut (buildGraph P resolveP config embeds pre) (resolveP fp)
              ⟨DepType.document, resolveP fp, [], []⟩))
          DepType.embed (String.toList "embed:" ++ ename)).1
        (resolveP fp)
        (resolveP (String.toList "embed:" ++ ename)))
      (addEdge
        (getOrCreateNode resolveP
          (dp1.foldl
            (dsStep resolveP config (resolveP (String.toList "embed:" ++ ename)))
            (addEdge
              (getOrCreateNode resolveP
                (ep.foldl (embedStep resolveP config embeds (resolveP fp))
                  (alPut (buildGraph P resolveP config embeds pre) (resolveP fp)
                    ⟨DepType.document, resolveP fp, [], []⟩))
                DepType.embed (String.toList "embed:" ++ ename)).1
              (resolveP fp)
              (resolveP (String.toList "embed:" ++ ename))))
          DepType.datasource dsPath).1
        (resolveP (String.toList "embed:" ++ ename))
        (resolveP dsPath)) :=
    Pres.trans2 (hPresDs _ dp1)
      (Pres.trans2 (Pres_getOrCreateNode resolveP _ DepType.datasource dsPath)
        (Pres_addEdge _ _ _))
  obtain ⟨ne2, hne2, hnety0, hne2dep0⟩ := hPresBaseToAft _ _ hne1
  obtain ⟨ne3, hne3, hnety, hne3dep⟩ := hPresAfter _ (hPresDs _ dp2) _ _ hne2
  -- (3) document node: carry from its creation all the way
  have hPresDocToBase : Pres
      (alPut (buildGraph P resolveP config embeds pre) (resolveP fp)
        ⟨DepType.document, resolveP fp, [], []⟩)
      (addEdge
        (getOrCreateNode resolveP
          (ep.foldl (embedStep resolveP config embeds (resolveP fp))
            (alPut (buildGraph P resolveP config embeds pre) (resolveP fp)
              ⟨DepType.document, resolveP fp, [], []⟩))
          DepType.embed (String.toList "embed:" ++ ename)).1
        (resolveP fp)
        (resolveP (String.toList "embed:" ++ ename))) :=
    Pres.trans2 (hPresEm _ ep)
      (Pres.trans2
        (Pres_getOrCreateNode resolveP _ DepType.embed
          (String.toList "embed:" ++ ename))
        (Pres_addEdge _ _ _))
  obtain ⟨nd1, hnd1, hndty0, _⟩ := hPresDocToBase _ _ hdoc0
  obtain ⟨nd2, hnd2, hndty1, _⟩ := hPresBaseToAft _ _ hnd1
  obtain ⟨nd3, hnd3, hndty2, _⟩ := hPresAfter _ (hPresDs _ dp2) _ _ hnd2
  refine ⟨ns2, ne3, nd3, hns2, ?_, hne3, ?_, hnd3, ?_⟩
  · exact hnsdep _ hns1dep
  · exact hne3dep _ (hne2dep0 _ hne1dep)
  · calc nd3.type = nd2.type := hndty2.symm
      _ = nd1.type := hndty1.symm
      _ = DepType.document := hndty0.symm

/-- C1: (i) In every dependency graph built from a file list containing a
document D whose content references a registered embed E (a parsed marker
with E's name), where E declares a datasource dependency whose configuration
carries a concrete path, `getAffectedDocuments` on that path contains D's
resolved path: the BFS along `dependedBy` edges reaches D from the
datasource node.  (ii) For every changed path that resolves to no node in
the graph, `getAffectedDocuments` returns the empty list. -/
theorem dependency_propagation
    (P : ExtParsers) (resolveP : Str → Str) (config : EmbedifyConfig)
    (embeds : List (Str × EmbedDefinition))
    (pre post : List (Str × Str × TargetConfig))
    (fp content : Str) (tc : TargetConfig) (cs : CommentStyle) (pf : ParsedFm)
    (ename : Str) (embed : EmbedDefinition) (dsName : Str) (dsCfg : DsConfig)
    (dsPath : Str)
    (hcs : getCommentStyle tc.comment_style config.comment_styles = .ok cs)
    (hpf : parseFrontmatter P content = .ok pf)
    (hmark : ename ∈ (parseMarkers pf.content cs).map (·.templateName))
    (hembed : alGet embeds ename = some embed)
    (hdep : dsName ∈ embed.dependsOn)
    (hdscfg : alGet (config.datasources.getD []) dsName = some dsCfg)
    (hdspath : dsCfg.path = some dsPath)
    (hfresh : alGet (buildGraph P resolveP config embeds pre) (resolveP fp) = none) :
    resolveP fp ∈ getAffectedDocuments resolveP
      (buildGraph P resolveP config embeds (pre ++ (fp, content, tc) :: post))
      dsPath ∧
    (∀ (nodes : DepNodes) (changed : Str),
      resolveStartNode resolveP nodes changed = none →
      getAffectedDocuments resolveP nodes changed = []) := by
  constructor
  · obtain ⟨ns, ne, nd, hns, hekdep, hne, hdkdep, hnd, hndty⟩ :=
      buildGraph_scenario P resolveP config embeds pre post fp content tc cs pf
        ename embed dsName dsCfg dsPath hcs hpf hmark hembed hdep hdscfg hdspath hfresh
    have hwk := WK_buildGraph P resolveP config embeds (pre ++ (fp, content, tc) :: post)
    have hnspath : ns.path = resolveP dsPath :=
      hwk _ (alGet_mem _ _ _ hns)
    unfold getAffectedDocuments resolveStartNode
    dsimp only
    rw [hns]
    dsimp only
    apply bfsLoop_complete _ hwk [ns] [] [] ns
      [resolveP (String.toList "embed:" ++ ename), resolveP fp] (resolveP fp) nd
    · intro n hn
      rw [List.mem_singleton] at hn
      subst hn
      rw [hnspath]
      exact hns
    · exact List.mem_singleton.mpr rfl
    · rw [hnspath]
      exact ⟨⟨ns, hns, hekdep⟩, ⟨ne, hne, hdkdep⟩, by simp [PathOK, alHas, hnd]⟩
    · simp
    · intro x hx
      simp [List.contains]
    · exact hnd
    · exact hndty
  · intro nodes changed h
    unfold getAffectedDocuments
    dsimp only
    rw [h]
    cases halg : alGet nodes (resolveP changed) with
    | some n =>
      exfalso
      unfold resolveStartNode at h
      dsimp only at h
      rw [halg] at h
      cases h
    | none =>
      rfl

theorem dependency_propagation_witness :
    String.toList "doc.md" ∈ getAffectedDocuments (fun s => s)
      (buildGraph trivParsers (fun s => s) c1cfg
        [(String.toList "chart", c1chart)]
        [(String.toList "doc.md", c1doc, htmlTC)])
      (String.toList "db.json") ∧
    getAffectedDocuments (fun s => s) [] (String.toList "nowhere.txt") = [] := by
  have h := dependency_propagation trivParsers (fun s => s) c1cfg
    [(String.toList "chart", c1chart)] [] []
    (String.toList "doc.md") c1doc htmlTC htmlCS ⟨[], c1doc, []⟩
    (String.toList "chart") c1chart (String.toList "DB")
    ⟨some (String.toList "db.json")⟩ (String.toList "db.json")
    rfl rfl (by decide) rfl (by decide) rfl rfl rfl
  exact ⟨h.1, h.2 [] (String.toList "nowhere.txt") rfl⟩

/-- C2: counterexample: with the `crlf` line ending the build is not
idempotent.  The first pass writes `c2written` (the crlf bytes); running the
build again on exactly those written bytes still reports `changed = true`,
so the second `BuildResult` does not have every `changed = false`. -/
theorem crlf_idempotence_counterexample :
    (processFile trivParsers (String.toList "/a.md") c2doc htmlTC c2embeds []
        cfgCrlf false).events =
      [.renderInvoked (String.toList "t"), .fileWrite c2written] ∧
    (buildFiles trivParsers [(String.toList "/a.md", c2written, htmlTC)]
        c2embeds [] cfgCrlf).results =
      [⟨String.toList "/a.md", true, 1, true, none⟩] :=
  ⟨rfl, rfl⟩

/-- C2: (amended) With the `lf` line ending the written text equals the
computed final text, and the build is idempotent on a single-marker document
whose processed body re-parses cleanly: when the re-parsed marker of the
once-processed body spans exactly the freshly spliced region with the same
name, params and marker lines (true whenever the rendered output contains no
marker delimiters), the second pass computes the same final text and reports
`changed = false`. -/
theorem second_pass_stable
    (P : ExtParsers) (fp content : Str) (tc : TargetConfig)
    (embeds : List (Str × EmbedDefinition)) (dss : List (Str × DsHandle))
    (config : EmbedifyConfig) (cs : CommentStyle) (pf : ParsedFm)
    (m m2 : ParsedMarker) (embed : EmbedDefinition) (r : Str)
    (hcs : getCommentStyle tc.comment_style config.comment_styles = .ok cs)
    (hpf : parseFrontmatter P content = .ok pf)
    (hdm : parseInlineDataMarkers pf.content cs = [])
    (hm : parseMarkers pf.content cs = [m])
    (hembed : alGet embeds m.templateName = some embed)
    (hr : embed.render { params := resolveVariablesWithInline m.params pf.data [],
                         frontmatter := pf.data, datasources := dss,
                         filePath := fp } = ⟨r⟩)
    (hrange : m.startIndex ≤ pf.content.length)
    (hlf : (config.output.bind (·.line_ending)).getD .lf = .lf)
    (hpf2 : parseFrontmatter P
        (pf.raw ++ (pf.content.take m.startIndex ++ markerReplacement m r ++
          pf.content.drop m.endIndex)) =
      .ok ⟨pf.data,
        pf.content.take m.startIndex ++ markerReplacement m r ++
          pf.content.drop m.endIndex, pf.raw⟩)
    (hdm2 : parseInlineDataMarkers
        (pf.content.take m.startIndex ++ markerReplacement m r ++
          pf.content.drop m.endIndex) cs = [])
    (hm2 : parseMarkers
        (pf.content.take m.startIndex ++ markerReplacement m r ++
          pf.content.drop m.endIndex) cs = [m2])
    (hname : m2.templateName = m.templateName)
    (hparams : m2.params = m.params)
    (hsml : m2.startMarkerLine = m.startMarkerLine)
    (heml : m2.endMarkerLine = m.endMarkerLine)
    (hsi : m2.startIndex = m.startIndex)
    (hei : m2.endIndex = m.startIndex + (markerReplacement m r).length) :
    (processFile P fp content tc embeds dss config false).final =
      some (pf.raw ++ (pf.content.take m.startIndex ++ markerReplacement m r ++
        pf.content.drop m.endIndex)) ∧
    (∀ w, ProcEvent.fileWrite w ∈
        (processFile P fp content tc embeds dss config false).events →
      w = pf.raw ++ (pf.content.take m.startIndex ++ markerReplacement m r ++
        pf.content.drop m.endIndex)) ∧
    (processFile P fp
        (pf.raw ++ (pf.content.take m.startIndex ++ markerReplacement m r ++
          pf.content.drop m.endIndex)) tc embeds dss config
        false).result.changed = false ∧
    (processFile P fp
        (pf.raw ++ (pf.content.take m.startIndex ++ markerReplacement m r ++
          pf.content.drop m.endIndex)) tc embeds dss config false).final =
      some (pf.raw ++ (pf.content.take m.startIndex ++ markerReplacement m r ++
        pf.content.drop m.endIndex)) := by
  have hA : (pf.content.take m.startIndex).length = m.startIndex := by
    rw [List.length_take]
    exact Nat.min_eq_left hrange
  have htake : ((pf.content.take m.startIndex ++ markerReplacement m r) ++
      pf.content.drop m.endIndex).take m2.startIndex = pf.content.take m.startIndex := by
    rw [hsi, List.append_assoc]
    have h1 := List.take_left (pf.content.take m.startIndex)
      (markerReplacement m r ++ pf.content.drop m.endIndex)
    rw [hA] at h1
    exact h1
  have hdrop : ((pf.content.take m.startIndex ++ markerReplacement m r) ++
      pf.content.drop m.endIndex).drop m2.endIndex = pf.content.drop m.endIndex := by
    have h1 := List.drop_left (pf.content.take m.startIndex ++ markerReplacement m r)
      (pf.content.drop m.endIndex)
    rw [List.length_append, hA] at h1
    rw [hei]
    exact h1
  have hrepl : markerReplacement m2 r = markerReplacement m r := by
    unfold markerReplacement
    rw [hparams, hsml, heml]
  refine ⟨?_, ?_, ?_, ?_⟩
  · unfold processFile processFileCore docDataMarkers
    rw [hcs, hpf]
    dsimp only
    rw [hdm, hm]
    simp only [List.map_nil, buildInline_nil, mergeDS_nil]
    have hsort : sortMarkersDesc [m] = [m] := rfl
    rw [hsort]
    simp only [List.cons_ne_self, false_and, if_false]
    unfold runMarkers
    rw [hembed]
    dsimp only
    rw [hr]
    unfold runMarkers
    rfl
  · unfold processFile processFileCore docDataMarkers
    rw [hcs, hpf]
    dsimp only
    rw [hdm, hm]
    simp only [List.map_nil, buildInline_nil, mergeDS_nil]
    have hsort : sortMarkersDesc [m] = [m] := rfl
    rw [hsort]
    simp only [List.cons_ne_self, false_and, if_false]
    unfold runMarkers
    rw [hembed]
    dsimp only
    rw [hr]
    unfold runMarkers
    dsimp only
    rw [hlf]
    intro w hw
    split at hw
    · rcases List.mem_append.mp hw with h | h
      · simp at h
      · simp only [List.mem_singleton] at h
        injection h with h2
    · simp at hw
  · unfold processFile processFileCore docDataMarkers
    rw [hcs, hpf2]
    dsimp only
    rw [hdm2, hm2]
    simp only [List.map_nil, buildInline_nil, mergeDS_nil]
    have hsort : sortMarkersDesc [m2] = [m2] := rfl
    rw [hsort]
    simp only [List.cons_ne_self, false_and, if_false]
    unfold runMarkers
    rw [hname, hembed]
    dsimp only
    rw [hparams, hr]
    unfold runMarkers
    dsimp only
    rw [htake, hrepl, hdrop]
    simp
  · unfold processFile processFileCore docDataMarkers
    rw [hcs, hpf2]
    dsimp only
    rw [hdm2, hm2]
    simp only [List.map_nil, buildInline_nil, mergeDS_nil]
    have hsort : sortMarkersDesc [m2] = [m2] := rfl
    rw [hsort]
    simp only [List.cons_ne_self, false_and, if_false]
    unfold runMarkers
    rw [hname, hembed]
    dsimp only
    rw [hparams, hr]
    unfold runMarkers
    dsimp only
    rw [htake, hrepl, hdrop]

theorem second_pass_stable_witness :
    (processFile trivParsers (String.toList "/a.md") c2doc htmlTC c2embeds []
        {} false).final =
      some ([] ++ (c2doc.take 0 ++ markerReplacement c2m (String.toList "X") ++
        c2doc.drop 41)) ∧
    (∀ w, ProcEvent.fileWrite w ∈
        (processFile trivParsers (String.toList "/a.md") c2doc htmlTC c2embeds []
          {} false).events →
      w = [] ++ (c2doc.take 0 ++ markerReplacement c2m (String.toList "X") ++
        c2doc.drop 41)) ∧
    (processFile trivParsers (String.toList "/a.md")
        ([] ++ (c2doc.take 0 ++ markerReplacement c2m (String.toList "X") ++
          c2doc.drop 41)) htmlTC c2embeds [] {} false).result.changed = false ∧
    (processFile trivParsers (String.toList "/a.md")
        ([] ++ (c2doc.take 0 ++ markerReplacement c2m (String.toList "X") ++
          c2doc.drop 41)) htmlTC c2embeds [] {} false).final =
      some ([] ++ (c2doc.take 0 ++ markerReplacement c2m (String.toList "X") ++
        c2doc.drop 41)) :=
  second_pass_stable trivParsers (String.toList "/a.md") c2doc htmlTC c2embeds []
    {} htmlCS ⟨[], c2doc, []⟩ c2m c2m2 (constEmbed "X") (String.toList "X")
    rfl rfl rfl rfl rfl rfl (by decide) rfl rfl rfl rfl rfl rfl rfl rfl rfl (by decide)

end Embedoc
